import Mathlib

set_option maxRecDepth 150000

/-!
Verification of the Newton/Heron square-root kernel `sqrt_newton.c`.

The C program computes `sqrt(a)` on IEEE-754 binary64 by the fixed-point
iteration `x_{n+1} = 0.5 * (x_n + a / x_n)`, with pre-dispatch on negative and
zero inputs, the initial guess `x0 = (a >= 1.0) ? a : 1.0`, the mixed stopping
test `|x_{n+1} - x_n| <= eps * (1 + |x_{n+1}|)`, and an iteration cap.

This file gives a shallow embedding of that program.  A binary64 value is NaN,
a signed infinity, or a signed dyadic `(-1)^sign * m * 2^e` in canonical form
(`-1074 ≤ e ≤ 971`, `m < 2^53`, and `m < 2^52` only at `e = -1074`, where
subnormals and zeros live).  Each arithmetic operation computes the exact
rational result and rounds it to nearest, ties to even, with overflow to
infinity and gradual underflow, exactly as IEEE-754 round-to-nearest requires.
All executable code is over `ℕ`/`ℤ` so that concrete runs of the kernel reduce
inside the Lean kernel (`decide`).
-/

/-- Power of two by binary splitting (structural recursion on a fuel argument,
so it reduces in the kernel with logarithmic depth). -/
def pow2aux : ℕ → ℕ → ℕ
  | 0, _ => 1
  | fuel + 1, k =>
    if k = 0 then 1
    else (if k % 2 = 1 then 2 else 1) * (pow2aux fuel (k / 2) * pow2aux fuel (k / 2))

/-- `pow2 k = 2 ^ k`, kernel-computable. -/
def pow2 (k : ℕ) : ℕ := pow2aux k k

/-- One step of the binary search for `⌊log2 n⌋`: extend `acc` by `j` if
`2 ^ (acc + j)` still fits below `n`. -/
def log2step (n acc j : ℕ) : ℕ := if pow2 (acc + j) ≤ n then acc + j else acc

/-- `⌊log2 n⌋` for `0 < n < 2 ^ 4096`, by a 12-level binary search on the
exponent (the fuel recursion of `Nat.log2` does not reduce well in the
kernel; this version is shallow). -/
def blog2 (n : ℕ) : ℕ :=
  let a := log2step n 0 2048
  let a := log2step n a 1024
  let a := log2step n a 512
  let a := log2step n a 256
  let a := log2step n a 128
  let a := log2step n a 64
  let a := log2step n a 32
  let a := log2step n a 16
  let a := log2step n a 8
  let a := log2step n a 4
  let a := log2step n a 2
  log2step n a 1

/-- IEEE-754 binary64 values. -/
inductive Float64 where
  | nan : Float64
  | inf (sign : Bool) : Float64
  | fin (sign : Bool) (m : ℕ) (e : ℤ) : Float64
deriving DecidableEq

namespace Float64

/-- Positive zero, the `0.0` of the C source. -/
def pzero : Float64 := .fin false 0 (-1074)

/-- Negative zero, `-0.0`. -/
def mzero : Float64 := .fin true 0 (-1074)

/-- Exact rational value of a finite float (NaN and infinities are mapped
to 0; they are always handled separately). -/
def toRat : Float64 → ℚ
  | .nan => 0
  | .inf _ => 0
  | .fin s m e => (cond s (-1) 1 : ℚ) * (m : ℚ) * (2 : ℚ) ^ e

/-- `⌊log2 (n / d)⌋` for positive naturals `n`, `d`. -/
def ratExp (n d : ℕ) : ℤ :=
  let e0 : ℤ := (blog2 n : ℤ) - (blog2 d : ℤ)
  if d * pow2 e0.toNat ≤ n * pow2 (-e0).toNat then e0 else e0 - 1

/-- Round `num / den` to the nearest integer, ties to even. -/
def roundSig (num den : ℕ) : ℕ :=
  let q := num / den
  let r := num % den
  if 2 * r < den then q
  else if den < 2 * r then q + 1
  else if q % 2 = 0 then q else q + 1

/-- Round the positive rational `(n / d) * 2 ^ e` to a binary64 with sign `s`:
round to nearest, ties to even, overflow to infinity, gradual underflow.
Returns a canonical `Float64`. -/
def roundFrac (s : Bool) (n d : ℕ) (e : ℤ) : Float64 :=
  if n = 0 ∨ d = 0 then .fin s 0 (-1074)
  else
    let ev : ℤ := ratExp n d + e
    if 1023 < ev then .inf s
    else
      let k : ℤ := max (ev - 52) (-1074)
      let sh : ℤ := e - k
      let m := roundSig (n * pow2 sh.toNat) (d * pow2 (-sh).toNat)
      if pow2 53 ≤ m then
        if 971 < k + 1 then .inf s else .fin s (pow2 52) (k + 1)
      else if m = 0 then .fin s 0 (-1074)
      else .fin s m k

/-- IEEE-754 negation (flips the sign bit; NaN stays NaN). -/
def fneg : Float64 → Float64
  | .nan => .nan
  | .inf s => .inf (!s)
  | .fin s m e => .fin (!s) m e

/-- Signed integer significand of a finite float, rescaled to exponent `l`. -/
def scaled (s : Bool) (m : ℕ) (e l : ℤ) : ℤ :=
  (cond s (-(m : ℤ)) (m : ℤ)) * (pow2 (e - l).toNat : ℤ)

/-- IEEE-754 `<`: false on NaN, `-0 < +0` is false. -/
def flt : Float64 → Float64 → Bool
  | .nan, _ => false
  | _, .nan => false
  | .inf s, .inf t => s && !t
  | .inf s, .fin _ _ _ => s
  | .fin _ _ _, .inf t => !t
  | .fin s1 m1 e1, .fin s2 m2 e2 =>
    decide (scaled s1 m1 e1 (min e1 e2) < scaled s2 m2 e2 (min e1 e2))

/-- IEEE-754 `==`: false on NaN, `-0 == +0` is true. -/
def feq : Float64 → Float64 → Bool
  | .nan, _ => false
  | _, .nan => false
  | .inf s, .inf t => s == t
  | .inf _, .fin _ _ _ => false
  | .fin _ _ _, .inf _ => false
  | .fin s1 m1 e1, .fin s2 m2 e2 =>
    decide (scaled s1 m1 e1 (min e1 e2) = scaled s2 m2 e2 (min e1 e2))

/-- IEEE-754 `<=`: `x ≤ y ↔ x == y ∨ x < y` (false whenever NaN is involved). -/
def fle (x y : Float64) : Bool := feq x y || flt x y

/-- IEEE-754 addition: exact rational sum rounded to nearest-even.  An exact
zero sum is `+0` unless both operands are negative zeros (round-to-nearest
sign rules). -/
def fadd : Float64 → Float64 → Float64
  | .nan, _ => .nan
  | _, .nan => .nan
  | .inf s, .inf t => if s = t then .inf s else .nan
  | .inf s, .fin _ _ _ => .inf s
  | .fin _ _ _, .inf t => .inf t
  | .fin s1 m1 e1, .fin s2 m2 e2 =>
    let l := min e1 e2
    let z : ℤ := scaled s1 m1 e1 l + scaled s2 m2 e2 l
    if z = 0 then (if s1 && s2 then mzero else pzero)
    else roundFrac (decide (z < 0)) z.natAbs 1 l

/-- IEEE-754 subtraction, as addition of the negation. -/
def fsub (x y : Float64) : Float64 := fadd x (fneg y)

/-- IEEE-754 multiplication: exact product rounded; `0 * ∞` is NaN. -/
def fmul : Float64 → Float64 → Float64
  | .nan, _ => .nan
  | _, .nan => .nan
  | .inf s, .inf t => .inf (xor s t)
  | .inf s, .fin t m _ => if m = 0 then .nan else .inf (xor s t)
  | .fin s m _, .inf t => if m = 0 then .nan else .inf (xor s t)
  | .fin s1 m1 e1, .fin s2 m2 e2 => roundFrac (xor s1 s2) (m1 * m2) 1 (e1 + e2)

/-- IEEE-754 division: exact quotient rounded; `0/0` and `∞/∞` are NaN,
division of a nonzero by zero gives a signed infinity. -/
def fdiv : Float64 → Float64 → Float64
  | .nan, _ => .nan
  | _, .nan => .nan
  | .inf _, .inf _ => .nan
  | .inf s, .fin t _ _ => .inf (xor s t)
  | .fin s _ _, .inf t => .fin (xor s t) 0 (-1074)
  | .fin s1 m1 e1, .fin s2 m2 e2 =>
    if m2 = 0 then (if m1 = 0 then .nan else .inf (xor s1 s2))
    else roundFrac (xor s1 s2) m1 m2 (e1 - e2)

end Float64

open Float64

/-- The double literal `1.0`. -/
def lit1 : Float64 := .fin false (pow2 52) (-52)

/-- The double literal `0.5`. -/
def litHalf : Float64 := .fin false (pow2 52) (-53)

/-- `abs_double` from the source: `(x < 0.0) ? (0.0 - x) : x`. -/
def abs_double (x : Float64) : Float64 :=
  if flt x pzero then fsub pzero x else x

/-- `is_nan` from the source: `x != x`. -/
def is_nan (x : Float64) : Bool := !feq x x

/-- One Newton step of the source loop body: `x_next = 0.5 * (x + a / x)`. -/
def stepF (a x : Float64) : Float64 := fmul litHalf (fadd x (fdiv a x))

/-- The stopping test of the loop body at state `x`: with
`x_next = 0.5 * (x + a/x)`, `diff = |x_next - x|` and
`tol = eps * (1 + |x_next|)`, the loop returns `x_next` iff `diff <= tol`. -/
def stopTest (a eps x : Float64) : Bool :=
  let x_next := stepF a x
  let diff := abs_double (fsub x_next x)
  let tol := fmul eps (fadd lit1 (abs_double x_next))
  fle diff tol

/-- The `for` loop of `sqrt_newton`: at most `n` more iterations from estimate
`x`; returns `x_next` as soon as the stop test fires, and the last estimate
when the iteration budget runs out. -/
def newtonLoop (a eps : Float64) : ℕ → Float64 → Float64
  | 0, x => x
  | n + 1, x => if stopTest a eps x then stepF a x else newtonLoop a eps n (stepF a x)

/-- The initial guess of the source: `x = (a >= 1.0) ? a : 1.0`. -/
def initGuess (a : Float64) : Float64 := if fle lit1 a then a else lit1

/-- `sqrt_newton` from the source (`int max_iters` is modelled as `ℕ`; the
driver always passes 100).  Negative inputs return the NaN generated in-band
by `0.0 / 0.0` on two local zeros; zero inputs return `+0.0`; otherwise the
Newton loop runs from the initial guess. -/
def sqrt_newton (a eps : Float64) (max_iters : ℕ) : Float64 :=
  if flt a pzero then fdiv pzero pzero
  else if feq a pzero then pzero
  else newtonLoop a eps max_iters (initGuess a)

/-- The `k`-th iterate of the Newton step from `x` (so `nthIter a x0 k` is the
estimate on entry to loop iteration `k`, as long as the loop has not stopped
earlier). -/
def nthIter (a x : Float64) : ℕ → Float64
  | 0 => x
  | k + 1 => stepF a (nthIter a x k)

/-- Index of the first iterate (counting from the start estimate `x`) at which
the stopping test fires, within the next `n` loop iterations. -/
def firstHit (a eps : Float64) : ℕ → Float64 → Option ℕ
  | 0, _ => none
  | n + 1, x =>
    if stopTest a eps x then some 0 else (firstHit a eps n (stepF a x)).map (· + 1)

/-- Whether the stopping test of `sqrt_newton a eps _` fires within the first
`n` loop iterations when started from the prescribed initial guess. -/
def stopsWithin (a eps : Float64) (n : ℕ) : Bool :=
  (firstHit a eps n (initGuess a)).isSome

/-- `ulp` of a finite float in this embedding: the canonical scale `2 ^ e` of
its representation (the spacing of neighbouring representables). -/
def ulpQ : Float64 → ℚ
  | .fin _ _ e => (2 : ℚ) ^ e
  | _ => 0

/-- A strictly positive value: a positive finite nonzero float or `+∞`.
Such a value compares unequal to zero, so it is a safe divisor. -/
def isPos : Float64 → Bool
  | .inf s => !s
  | .fin s m _ => !s && decide (m ≠ 0)
  | .nan => false

/-- A strictly positive finite (nonzero) float. -/
def isPosFin : Float64 → Bool
  | .fin s m _ => !s && decide (m ≠ 0)
  | _ => false

/-- A strictly positive value with the canonical binary64 significand and
exponent ranges (the invariant maintained by every Newton iterate). -/
def posW : Float64 → Bool
  | .inf s => !s
  | .fin s m e =>
    !s && decide (0 < m) && decide (m < pow2 53) && decide (-1074 ≤ e) && decide (e ≤ 971)
  | .nan => false

/-- Well-formed binary64: NaN, infinity, or a finite value in the canonical
ranges (`m < 2^53`, `-1074 ≤ e ≤ 971`, and `m ≥ 2^52` away from the bottom
exponent).  Every value the embedding's operations produce is of this form. -/
def wfF : Float64 → Bool
  | .nan => true
  | .inf _ => true
  | .fin _ m e =>
    decide (m < pow2 53) && decide (-1074 ≤ e) && decide (e ≤ 971) &&
      (decide (pow2 52 ≤ m) || decide (e = -1074))

/-- `toRat a ≤ (toRat x)^2`, decided on the dyadic representations (used to
state the `x ≥ √a` invariant without leaving `ℚ`). -/
def sqGeF : Float64 → Float64 → Bool
  | .fin _ mx ex, .fin sa ma ea =>
    sa ||
      decide ((ma : ℤ) * (pow2 (ea - min (2 * ex) ea).toNat : ℤ) ≤
        (mx : ℤ) * (mx : ℤ) * (pow2 (2 * ex - min (2 * ex) ea).toNat : ℤ))
  | _, _ => false

/-- Entry-iterate check for the monotonicity invariant: along the loop from
state `x`, every iterate that re-enters the loop body (no stop yet) is at most
its predecessor and still at least `√a`. -/
def entriesOk (a eps : Float64) : ℕ → Float64 → Bool
  | 0, _ => true
  | n + 1, x =>
    if stopTest a eps x then true
    else (fle (stepF a x) x && sqGeF (stepF a x) a) && entriesOk a eps n (stepF a x)

/-- The driver's `eps = 1e-12`: binary64 nearest to the decimal literal. -/
def litEps : Float64 := roundFrac false 1 (10 ^ 12) 0

/-- The driver input `2.0`. -/
def lit2 : Float64 := .fin false (pow2 52) (-51)

/-- The driver input `9.0`. -/
def lit9 : Float64 := .fin false (9 * pow2 49) (-49)

/-- The driver input `0.25`. -/
def litQuarter : Float64 := .fin false (pow2 52) (-54)

/-- The driver input `1e-12`: binary64 nearest to the decimal literal. -/
def lit1em12 : Float64 := roundFrac false 1 (10 ^ 12) 0

/-- The driver input `1e12` (exactly representable). -/
def lit1e12 : Float64 := .fin false (10 ^ 12 * pow2 13) (-13)

/-- The driver input `-4.0`. -/
def litm4 : Float64 := .fin true (pow2 52) (-50)

/-- The binary64 nearest to the decimal `1.4142135623730951` (which is the
shortest decimal round-trip of binary64 `√2`). -/
def sqrt2up : Float64 := .fin false 6369051672525773 (-52)

/-- One ulp below `sqrt2up`: the value `1.4142135623730950…` that the kernel
actually converges to for `a = 2`. -/
def sqrt2dn : Float64 := .fin false 6369051672525772 (-52)

/-- The binary64 nearest to the decimal `1e-6`. -/
def lit1em6 : Float64 := .fin false 4722366482869645 (-72)

/-- The double `3.0`. -/
def lit3 : Float64 := .fin false (3 * pow2 51) (-51)

/-- The double `1000000.0` (the exact square root of `1e12`). -/
def lit1e6 : Float64 := .fin false (10 ^ 6 * pow2 33) (-33)

/-- A large normal input, `2 ^ 1023`, on which the stopping test never fires
within the iteration cap. -/
def aBig : Float64 := .fin false (pow2 52) 971

/-- The input `2.046875 = 131/64`, a positive normal double whose Newton orbit
re-enters the loop with an estimate strictly below `√a`. -/
def aStar : Float64 := .fin false 4609152743636992 (-51)

/-- The positive subnormal inputs start at `2 ^ -1074`. -/
def minSub : Float64 := .fin false 1 (-1074)

/-! ### Basic lemmas about the embedding -/

theorem fdiv_nan (a : Float64) : fdiv a .nan = .nan := by cases a <;> rfl

theorem fadd_nan (a : Float64) : fadd a .nan = .nan := by cases a <;> rfl

theorem fmul_nan (a : Float64) : fmul a .nan = .nan := by cases a <;> rfl

theorem stepF_nan (a : Float64) : stepF a .nan = .nan := by
  simp [stepF, fdiv_nan, fadd_nan, fmul_nan]

theorem fle_nan_left (y : Float64) : fle .nan y = false := by cases y <;> rfl

theorem stopTest_of_step_nan (a eps x : Float64) (h : stepF a x = .nan) :
    stopTest a eps x = false := by
  simp only [stopTest, h]
  simp [fsub, fadd, abs_double, flt, fle_nan_left]

theorem stopTest_nan (a eps : Float64) : stopTest a eps .nan = false :=
  stopTest_of_step_nan a eps .nan (stepF_nan a)

theorem newtonLoop_nan (a eps : Float64) (n : ℕ) : newtonLoop a eps n .nan = .nan := by
  induction n with
  | zero => rfl
  | succ n ih => simp [newtonLoop, stopTest_nan, stepF_nan, ih]

theorem newtonLoop_stop (a eps x : Float64) (n : ℕ) (h : stopTest a eps x = true) :
    newtonLoop a eps (n + 1) x = stepF a x := by
  simp [newtonLoop, h]

theorem newtonLoop_go (a eps x : Float64) (n : ℕ) (h : stopTest a eps x = false) :
    newtonLoop a eps (n + 1) x = newtonLoop a eps n (stepF a x) := by
  simp [newtonLoop, h]

/-! ### The loop returns the first iterate passing the stopping test -/

theorem nthIter_shift (a x : Float64) (k : ℕ) :
    nthIter a (stepF a x) k = nthIter a x (k + 1) := by
  induction k with
  | zero => rfl
  | succ k ih => simp [nthIter, ih]

theorem newtonLoop_eq_firstHit (a eps : Float64) :
    ∀ (n : ℕ) (x : Float64),
      newtonLoop a eps n x =
        (match firstHit a eps n x with
          | some k => nthIter a x (k + 1)
          | none => nthIter a x n)
  | 0, x => rfl
  | n + 1, x => by
    by_cases h : stopTest a eps x = true
    · simp [newtonLoop, firstHit, h, nthIter]
    · rw [Bool.not_eq_true] at h
      rw [newtonLoop_go a eps x n h, newtonLoop_eq_firstHit a eps n (stepF a x)]
      simp only [firstHit, h, Bool.false_eq_true, if_false]
      rcases hfh : firstHit a eps n (stepF a x) with _ | k
      · simp [hfh, nthIter_shift]
      · simp [hfh, nthIter_shift]

theorem firstHit_some_spec (a eps : Float64) :
    ∀ (n : ℕ) (x : Float64) (k : ℕ), firstHit a eps n x = some k →
      k < n ∧ stopTest a eps (nthIter a x k) = true ∧
        ∀ j, j < k → stopTest a eps (nthIter a x j) = false
  | 0, _, _, h => by simp [firstHit] at h
  | n + 1, x, k, h => by
    by_cases hs : stopTest a eps x = true
    · simp [firstHit, hs] at h
      subst h
      exact ⟨Nat.succ_pos n, hs, fun j hj => absurd hj (Nat.not_lt_zero j)⟩
    · rw [Bool.not_eq_true] at hs
      simp only [firstHit, hs, Bool.false_eq_true, if_false, Option.map_eq_some'] at h
      obtain ⟨k0, hk0, rfl⟩ := h
      obtain ⟨hlt, hstop, hprev⟩ := firstHit_some_spec a eps n (stepF a x) k0 hk0
      refine ⟨Nat.succ_lt_succ hlt, ?_, ?_⟩
      · rwa [nthIter_shift] at hstop
      · intro j hj
        cases j with
        | zero => exact hs
        | succ j0 =>
          have := hprev j0 (Nat.lt_of_succ_lt_succ hj)
          rwa [nthIter_shift] at this

theorem firstHit_none_spec (a eps : Float64) :
    ∀ (n : ℕ) (x : Float64), firstHit a eps n x = none →
      ∀ j, j < n → stopTest a eps (nthIter a x j) = false
  | 0, _, _, j, hj => absurd hj (Nat.not_lt_zero j)
  | n + 1, x, h, j, hj => by
    by_cases hs : stopTest a eps x = true
    · simp [firstHit, hs] at h
    · rw [Bool.not_eq_true] at hs
      simp only [firstHit, hs, Bool.false_eq_true, if_false, Option.map_eq_none'] at h
      cases j with
      | zero => exact hs
      | succ j0 =>
        have := firstHit_none_spec a eps n (stepF a x) h j0 (Nat.lt_of_succ_lt_succ hj)
        rwa [nthIter_shift] at this

theorem fle_refl_of_not_nan (d : Float64) (h : is_nan d = false) : fle d d = true := by
  cases d with
  | nan => simp [is_nan, feq] at h
  | inf s => simp [fle, feq]
  | fin s m e => simp [fle, feq]

/-! ### Soundness of the kernel-computable arithmetic helpers -/

theorem pow2aux_eq : ∀ (fuel k : ℕ), k ≤ fuel → pow2aux fuel k = 2 ^ k
  | 0, k, h => by
    have hk : k = 0 := Nat.le_zero.mp h
    subst hk; rfl
  | fuel + 1, k, h => by
    rcases Nat.eq_zero_or_pos k with rfl | hk
    · rfl
    · have ih := pow2aux_eq fuel (k / 2) (by omega)
      have hk0 : ¬ k = 0 := by omega
      simp only [pow2aux, hk0, if_false, ih, ← pow_add]
      rcases Nat.mod_two_eq_zero_or_one k with h2 | h2
      · rw [h2]
        norm_num
        omega
      · rw [h2]
        norm_num
        rw [← pow_succ']
        congr 1
        omega

theorem pow2_eq (k : ℕ) : pow2 k = 2 ^ k := pow2aux_eq k k le_rfl

theorem log2step_sound (n acc j : ℕ) (h1 : 2 ^ acc ≤ n) (h2 : n < 2 ^ (acc + (j + j))) :
    2 ^ log2step n acc j ≤ n ∧ n < 2 ^ (log2step n acc j + j) := by
  by_cases h : pow2 (acc + j) ≤ n
  · have e : log2step n acc j = acc + j := by simp [log2step, h]
    rw [pow2_eq] at h
    rw [e]
    exact ⟨h, by rw [Nat.add_assoc]; exact h2⟩
  · have e : log2step n acc j = acc := by simp [log2step, h]
    rw [e]
    rw [pow2_eq] at h
    exact ⟨h1, by omega⟩

theorem blog2_sound (n : ℕ) (h0 : 0 < n) (hn : n < 2 ^ 4096) :
    2 ^ blog2 n ≤ n ∧ n < 2 ^ (blog2 n + 1) := by
  have s1 := log2step_sound n 0 2048 (by simpa using h0) (by simpa using hn)
  have s2 := log2step_sound n _ 1024 s1.1 (by simpa using s1.2)
  have s3 := log2step_sound n _ 512 s2.1 (by simpa using s2.2)
  have s4 := log2step_sound n _ 256 s3.1 (by simpa using s3.2)
  have s5 := log2step_sound n _ 128 s4.1 (by simpa using s4.2)
  have s6 := log2step_sound n _ 64 s5.1 (by simpa using s5.2)
  have s7 := log2step_sound n _ 32 s6.1 (by simpa using s6.2)
  have s8 := log2step_sound n _ 16 s7.1 (by simpa using s7.2)
  have s9 := log2step_sound n _ 8 s8.1 (by simpa using s8.2)
  have s10 := log2step_sound n _ 4 s9.1 (by simpa using s9.2)
  have s11 := log2step_sound n _ 2 s10.1 (by simpa using s10.2)
  have s12 := log2step_sound n _ 1 s11.1 (by simpa using s11.2)
  exact s12

/-! ### Bridges between the integer computations and rational values -/

theorem pow2_castQ (x : ℕ) : ((pow2 x : ℕ) : ℚ) = (2 : ℚ) ^ (x : ℤ) := by
  rw [pow2_eq, zpow_natCast]
  push_cast
  rfl

theorem two_zpow_pos (x : ℤ) : (0 : ℚ) < 2 ^ x := zpow_pos (by norm_num) x

theorem two_zpow_mono {x y : ℤ} (h : x ≤ y) : (2 : ℚ) ^ x ≤ 2 ^ y :=
  zpow_le_zpow_right₀ (by norm_num) h

theorem two_zpow_lt_iff {x y : ℤ} : (2 : ℚ) ^ x < 2 ^ y ↔ x < y :=
  zpow_lt_zpow_iff_right₀ (by norm_num)

/-- The rescaled significand reproduces the value: for `l ≤ e`,
`scaled s m e l * 2^l = toRat (fin s m e)`. -/
theorem scaled_castQ (s : Bool) (m : ℕ) (e l : ℤ) (h : l ≤ e) :
    ((Float64.scaled s m e l : ℤ) : ℚ) * (2 : ℚ) ^ l = toRat (.fin s m e) := by
  have he : ((e - l).toNat : ℤ) = e - l := Int.toNat_of_nonneg (by omega)
  cases s <;>
  · simp only [Float64.scaled, toRat, cond]
    push_cast
    rw [pow2_castQ, he, mul_assoc, ← zpow_add₀ (by norm_num : (2:ℚ) ≠ 0), sub_add_cancel]
    ring

/-- `flt` on finite values is the rational strict order. -/
theorem flt_fin_iff (s1 s2 : Bool) (m1 m2 : ℕ) (e1 e2 : ℤ) :
    flt (.fin s1 m1 e1) (.fin s2 m2 e2) = true ↔
      toRat (.fin s1 m1 e1) < toRat (.fin s2 m2 e2) := by
  have h1 := scaled_castQ s1 m1 e1 (min e1 e2) (min_le_left e1 e2)
  have h2 := scaled_castQ s2 m2 e2 (min e1 e2) (min_le_right e1 e2)
  simp only [flt, decide_eq_true_eq]
  rw [← h1, ← h2]
  constructor
  · intro h
    exact mul_lt_mul_of_pos_right (by exact_mod_cast h) (two_zpow_pos _)
  · intro h
    have := lt_of_mul_lt_mul_right h (le_of_lt (two_zpow_pos (min e1 e2)))
    exact_mod_cast this

/-- `feq` on finite values is rational equality. -/
theorem feq_fin_iff (s1 s2 : Bool) (m1 m2 : ℕ) (e1 e2 : ℤ) :
    feq (.fin s1 m1 e1) (.fin s2 m2 e2) = true ↔
      toRat (.fin s1 m1 e1) = toRat (.fin s2 m2 e2) := by
  have h1 := scaled_castQ s1 m1 e1 (min e1 e2) (min_le_left e1 e2)
  have h2 := scaled_castQ s2 m2 e2 (min e1 e2) (min_le_right e1 e2)
  simp only [feq, decide_eq_true_eq]
  rw [← h1, ← h2]
  constructor
  · intro h
    rw [h]
  · intro h
    have hne : ((2:ℚ) ^ (min e1 e2)) ≠ 0 := ne_of_gt (two_zpow_pos _)
    have := mul_right_cancel₀ hne h
    exact_mod_cast this

/-- `fle` on finite values is the rational order. -/
theorem fle_fin_iff (s1 s2 : Bool) (m1 m2 : ℕ) (e1 e2 : ℤ) :
    fle (.fin s1 m1 e1) (.fin s2 m2 e2) = true ↔
      toRat (.fin s1 m1 e1) ≤ toRat (.fin s2 m2 e2) := by
  rw [fle, Bool.or_eq_true, flt_fin_iff, feq_fin_iff, le_iff_lt_or_eq]
  tauto

/-! ### Soundness of `ratExp` and bounds for the rounding -/

theorem pow2_pos (x : ℕ) : 0 < pow2 x := by
  rw [pow2_eq]; positivity

theorem natpow_castQ (x : ℕ) : ((2 ^ x : ℕ) : ℚ) = (2 : ℚ) ^ (x : ℤ) := by
  rw [zpow_natCast]; push_cast; rfl

theorem two_zpow_mul (x y : ℤ) : (2 : ℚ) ^ x * 2 ^ y = 2 ^ (x + y) :=
  (zpow_add₀ (by norm_num : (2:ℚ) ≠ 0) x y).symm

/-- The comparison used by `ratExp` decides `2^e * d ≤ n` over `ℚ`. -/
theorem ratExp_test_iff (n d : ℕ) (e : ℤ) :
    (d * pow2 e.toNat ≤ n * pow2 (-e).toNat) ↔ (2 : ℚ) ^ e * d ≤ (n : ℚ) := by
  have hkey : (2 : ℚ) ^ e * 2 ^ (((-e).toNat : ℤ)) = 2 ^ ((e.toNat : ℤ)) := by
    rw [← zpow_add₀ (by norm_num : (2:ℚ) ≠ 0)]
    congr 1
    omega
  have hpos : (0 : ℚ) < 2 ^ (((-e).toNat : ℤ)) := two_zpow_pos _
  constructor
  · intro h
    have hq : (d : ℚ) * 2 ^ ((e.toNat : ℤ)) ≤ (n : ℚ) * 2 ^ (((-e).toNat : ℤ)) := by
      have := (Nat.cast_le (α := ℚ)).mpr h
      push_cast [pow2_castQ] at this
      convert this using 2
    rw [← mul_le_mul_right hpos]
    calc (2:ℚ) ^ e * d * 2 ^ (((-e).toNat : ℤ))
        = (d : ℚ) * ((2:ℚ) ^ e * 2 ^ (((-e).toNat : ℤ))) := by ring
      _ = (d : ℚ) * 2 ^ ((e.toNat : ℤ)) := by rw [hkey]
      _ ≤ (n : ℚ) * 2 ^ (((-e).toNat : ℤ)) := hq
  · intro h
    have hq : (d : ℚ) * 2 ^ ((e.toNat : ℤ)) ≤ (n : ℚ) * 2 ^ (((-e).toNat : ℤ)) := by
      calc (d : ℚ) * 2 ^ ((e.toNat : ℤ))
          = (2:ℚ) ^ e * d * 2 ^ (((-e).toNat : ℤ)) := by rw [← hkey]; ring
        _ ≤ (n : ℚ) * 2 ^ (((-e).toNat : ℤ)) :=
            mul_le_mul_of_nonneg_right h (le_of_lt hpos)
    rw [← Nat.cast_le (α := ℚ)]
    push_cast [pow2_castQ]
    convert hq using 2

set_option maxHeartbeats 2000000 in
theorem ratExp_sound (n d : ℕ) (hn : 0 < n) (hd : 0 < d)
    (hn4 : n < 2 ^ 4096) (hd4 : d < 2 ^ 4096) :
    (2 : ℚ) ^ ratExp n d * d ≤ n ∧ (n : ℚ) < 2 ^ (ratExp n d + 1) * d := by
  have hsn := blog2_sound n hn hn4
  have hsd := blog2_sound d hd hd4
  have hre : ratExp n d =
      (if d * pow2 ((blog2 n : ℤ) - (blog2 d : ℤ)).toNat ≤
          n * pow2 (-((blog2 n : ℤ) - (blog2 d : ℤ))).toNat
        then (blog2 n : ℤ) - (blog2 d : ℤ)
        else (blog2 n : ℤ) - (blog2 d : ℤ) - 1) := rfl
  obtain ⟨A, hA⟩ : ∃ A, blog2 n = A := ⟨_, rfl⟩
  obtain ⟨B, hB⟩ : ∃ B, blog2 d = B := ⟨_, rfl⟩
  rw [hA] at hsn hre
  rw [hB] at hsd hre
  obtain ⟨hln, hun⟩ := hsn
  obtain ⟨hld, hud⟩ := hsd
  have hlnQ : (2:ℚ) ^ (A : ℤ) ≤ n := by
    rw [← natpow_castQ]; exact_mod_cast hln
  have hunQ : (n : ℚ) < 2 ^ ((A : ℤ) + 1) := by
    have : (n : ℚ) < ((2 ^ (A + 1) : ℕ) : ℚ) := by exact_mod_cast hun
    rwa [natpow_castQ, Nat.cast_add, Nat.cast_one] at this
  have hldQ : (2:ℚ) ^ (B : ℤ) ≤ d := by
    rw [← natpow_castQ]; exact_mod_cast hld
  have hudQ : (d : ℚ) < 2 ^ ((B : ℤ) + 1) := by
    have : (d : ℚ) < ((2 ^ (B + 1) : ℕ) : ℚ) := by exact_mod_cast hud
    rwa [natpow_castQ, Nat.cast_add, Nat.cast_one] at this
  by_cases h : d * pow2 ((A : ℤ) - (B : ℤ)).toNat ≤ n * pow2 (-((A : ℤ) - (B : ℤ))).toNat
  · rw [hre, if_pos h]
    constructor
    · exact (ratExp_test_iff n d ((A : ℤ) - (B : ℤ))).mp h
    · calc (n : ℚ) < 2 ^ ((A : ℤ) + 1) := hunQ
        _ = 2 ^ ((A : ℤ) - (B : ℤ) + 1) * 2 ^ (B : ℤ) := by
            rw [two_zpow_mul, show (A : ℤ) - (B : ℤ) + 1 + (B : ℤ) = (A : ℤ) + 1 from by ring]
        _ ≤ 2 ^ ((A : ℤ) - (B : ℤ) + 1) * d :=
            mul_le_mul_of_nonneg_left hldQ (le_of_lt (two_zpow_pos _))
  · rw [hre, if_neg h]
    constructor
    · have hstep : (2:ℚ) ^ ((A : ℤ) - (B : ℤ) - 1) * d <
          2 ^ ((A : ℤ) - (B : ℤ) - 1) * 2 ^ ((B : ℤ) + 1) :=
        mul_lt_mul_of_pos_left hudQ (two_zpow_pos _)
      have h2 : (2:ℚ) ^ ((A : ℤ) - (B : ℤ) - 1) *
          2 ^ ((B : ℤ) + 1) = 2 ^ (A : ℤ) := by
        rw [two_zpow_mul, show (A : ℤ) - (B : ℤ) - 1 + ((B : ℤ) + 1) = (A : ℤ) from by ring]
      exact le_of_lt (lt_of_lt_of_le (h2 ▸ hstep) hlnQ)
    · have hlt : ¬ ((2:ℚ) ^ ((A : ℤ) - (B : ℤ)) * d ≤ n) := fun hc =>
        h ((ratExp_test_iff n d ((A : ℤ) - (B : ℤ))).mpr hc)
      push_neg at hlt
      calc (n : ℚ) < 2 ^ ((A : ℤ) - (B : ℤ)) * d := hlt
        _ = 2 ^ ((A : ℤ) - (B : ℤ) - 1 + 1) * d := by
            rw [show (A : ℤ) - (B : ℤ) - 1 + 1 = (A : ℤ) - (B : ℤ) from by ring]

/-! ### Shape and lower bounds for the rounding `roundFrac` -/

theorem two_zpow_sub (x y : ℤ) : (2 : ℚ) ^ (x - y) = 2 ^ x * 2 ^ (-y) := by
  rw [sub_eq_add_neg, ← two_zpow_mul]

theorem roundSig_ge_div (num den : ℕ) : num / den ≤ roundSig num den := by
  simp only [roundSig]
  repeat' split
  all_goals omega

theorem le_roundSig_of_le (M D t : ℕ) (hD : 0 < D) (h : (t : ℚ) * D ≤ M) :
    t ≤ roundSig M D := by
  have h1 : t * D ≤ M := by exact_mod_cast h
  have h2 : t ≤ M / D := (Nat.le_div_iff_mul_le hD).mpr h1
  exact le_trans h2 (roundSig_ge_div M D)

theorem pow2_52_lt_53 : pow2 52 < pow2 53 := by
  rw [pow2_eq, pow2_eq]
  norm_num

theorem roundFrac_shape (s : Bool) (n d : ℕ) (e : ℤ) :
    roundFrac s n d e = .inf s ∨
      ∃ m k, roundFrac s n d e = .fin s m k ∧ m < pow2 53 ∧ -1074 ≤ k ∧ k ≤ 971 := by
  by_cases h0 : n = 0 ∨ d = 0
  · right
    refine ⟨0, -1074, by simp [roundFrac, h0], pow2_pos 53, by norm_num, by norm_num⟩
  · simp only [roundFrac]
    rw [if_neg h0]
    by_cases hov : 1023 < ratExp n d + e
    · rw [if_pos hov]
      exact Or.inl rfl
    · rw [if_neg hov]
      have hk1074 : (-1074 : ℤ) ≤ max (ratExp n d + e - 52) (-1074) := le_max_right _ _
      have hk971 : max (ratExp n d + e - 52) (-1074) ≤ 971 :=
        max_le (by omega) (by norm_num)
      by_cases hbump : pow2 53 ≤ roundSig
          (n * pow2 (e - max (ratExp n d + e - 52) (-1074)).toNat)
          (d * pow2 (-(e - max (ratExp n d + e - 52) (-1074))).toNat)
      · rw [if_pos hbump]
        by_cases hinf : 971 < max (ratExp n d + e - 52) (-1074) + 1
        · rw [if_pos hinf]
          exact Or.inl rfl
        · rw [if_neg hinf]
          right
          exact ⟨pow2 52, _, rfl, pow2_52_lt_53, by omega, by omega⟩
      · rw [if_neg hbump]
        by_cases hz : roundSig
            (n * pow2 (e - max (ratExp n d + e - 52) (-1074)).toNat)
            (d * pow2 (-(e - max (ratExp n d + e - 52) (-1074))).toNat) = 0
        · rw [if_pos hz]
          right
          exact ⟨0, -1074, rfl, pow2_pos 53, by norm_num, by norm_num⟩
        · rw [if_neg hz]
          right
          exact ⟨_, _, rfl, by omega, hk1074, hk971⟩

theorem roundFrac_caseA (n d : ℕ) (e c K : ℤ)
    (h : (2 : ℚ) ^ c * d ≤ (n : ℚ) * 2 ^ e) (hkc : K ≤ c) :
    ((2 ^ ((c - K).toNat) : ℕ) : ℚ) * ((d * pow2 (-(e - K)).toNat : ℕ) : ℚ) ≤
      ((n * pow2 (e - K).toNat : ℕ) : ℚ) := by
  push_cast [pow2_castQ, natpow_castQ]
  have e1 : (((c - K).toNat : ℕ) : ℤ) = c - K := by omega
  have e2 : (((e - K).toNat : ℕ) : ℤ) = (e - K) + (((-(e - K)).toNat : ℕ) : ℤ) := by omega
  rw [← zpow_natCast (2 : ℚ) ((c - K).toNat), e1, e2, ← two_zpow_mul]
  have hX : (0 : ℚ) < 2 ^ ((((-(e - K)).toNat : ℕ)) : ℤ) := two_zpow_pos _
  have base : (2 : ℚ) ^ (c - K) * d ≤ (n : ℚ) * 2 ^ (e - K) := by
    have hstep := mul_le_mul_of_nonneg_right h (le_of_lt (two_zpow_pos (-K)))
    calc (2 : ℚ) ^ (c - K) * d = 2 ^ c * d * 2 ^ (-K) := by
          rw [two_zpow_sub]; ring
      _ ≤ (n : ℚ) * 2 ^ e * 2 ^ (-K) := hstep
      _ = (n : ℚ) * 2 ^ (e - K) := by
          rw [two_zpow_sub]; ring
  calc (2 : ℚ) ^ (c - K) * ((d : ℚ) * 2 ^ ((((-(e - K)).toNat : ℕ)) : ℤ))
      = ((2 : ℚ) ^ (c - K) * d) * 2 ^ ((((-(e - K)).toNat : ℕ)) : ℤ) := by ring
    _ ≤ ((n : ℚ) * 2 ^ (e - K)) * 2 ^ ((((-(e - K)).toNat : ℕ)) : ℤ) :=
        mul_le_mul_of_nonneg_right base (le_of_lt hX)
    _ = (n : ℚ) * (2 ^ (e - K) * 2 ^ ((((-(e - K)).toNat : ℕ)) : ℤ)) := by ring

theorem roundFrac_caseB (n d : ℕ) (e P K : ℤ)
    (hP1 : (2 : ℚ) ^ P * d ≤ n) (hPK : P + e = K + 52) :
    ((2 ^ 52 : ℕ) : ℚ) * ((d * pow2 (-(e - K)).toNat : ℕ) : ℚ) ≤
      ((n * pow2 (e - K).toNat : ℕ) : ℚ) := by
  push_cast [pow2_castQ]
  have e2 : (((e - K).toNat : ℕ) : ℤ) = (e - K) + (((-(e - K)).toNat : ℕ) : ℤ) := by omega
  rw [e2, ← two_zpow_mul,
    show (4503599627370496 : ℚ) = 2 ^ (52 : ℤ) from by
      rw [show (52 : ℤ) = ((52 : ℕ) : ℤ) from rfl, zpow_natCast]; norm_num]
  have hX : (0 : ℚ) < 2 ^ ((((-(e - K)).toNat : ℕ)) : ℤ) := two_zpow_pos _
  have base : (2 : ℚ) ^ (52 : ℤ) * d ≤ (n : ℚ) * 2 ^ (e - K) := by
    calc (2 : ℚ) ^ (52 : ℤ) * d
        = 2 ^ P * 2 ^ (e - K) * d := by
          rw [two_zpow_mul, show P + (e - K) = (52 : ℤ) from by omega]
      _ = 2 ^ P * (d : ℚ) * 2 ^ (e - K) := by ring
      _ ≤ (n : ℚ) * 2 ^ (e - K) :=
          mul_le_mul_of_nonneg_right hP1 (le_of_lt (two_zpow_pos _))
  calc (2 : ℚ) ^ (52 : ℤ) * ((d : ℚ) * 2 ^ ((((-(e - K)).toNat : ℕ)) : ℤ))
      = ((2 : ℚ) ^ (52 : ℤ) * d) * 2 ^ ((((-(e - K)).toNat : ℕ)) : ℤ) := by ring
    _ ≤ ((n : ℚ) * 2 ^ (e - K)) * 2 ^ ((((-(e - K)).toNat : ℕ)) : ℤ) :=
        mul_le_mul_of_nonneg_right base (le_of_lt hX)
    _ = (n : ℚ) * (2 ^ (e - K) * 2 ^ ((((-(e - K)).toNat : ℕ)) : ℤ)) := by ring

/-- Lower bound preserved by rounding: if the positive rational `(n/d) * 2^e`
is at least `2^c` (with `c` in the representable range), then its rounding is
`+∞` or a nonzero positive finite float of value at least `2^c`. -/
theorem roundFrac_lb (n d : ℕ) (e c : ℤ) (hn : 0 < n) (hd : 0 < d)
    (hn4 : n < 2 ^ 4096) (hd4 : d < 2 ^ 4096) (hc : -1074 ≤ c)
    (h : (2 : ℚ) ^ c * d ≤ (n : ℚ) * 2 ^ e) :
    roundFrac false n d e = .inf false ∨
      ∃ m k, roundFrac false n d e = .fin false m k ∧ 0 < m ∧
        (2 : ℚ) ^ c ≤ (m : ℚ) * 2 ^ k := by
  have hP := ratExp_sound n d hn hd hn4 hd4
  have hcev : c ≤ ratExp n d + e := by
    have h1 : (n : ℚ) * 2 ^ e < (2 ^ (ratExp n d + 1) * d) * 2 ^ e :=
      mul_lt_mul_of_pos_right hP.2 (two_zpow_pos e)
    have h2 : (2 : ℚ) ^ c * d < (2 ^ (ratExp n d + 1) * 2 ^ e) * d := by
      calc (2 : ℚ) ^ c * d ≤ (n : ℚ) * 2 ^ e := h
        _ < (2 ^ (ratExp n d + 1) * d) * 2 ^ e := h1
        _ = (2 ^ (ratExp n d + 1) * 2 ^ e) * d := by ring
    have h3 : (2 : ℚ) ^ c < 2 ^ (ratExp n d + 1) * 2 ^ e :=
      lt_of_mul_lt_mul_right h2 (by positivity)
    rw [two_zpow_mul] at h3
    have := two_zpow_lt_iff.mp h3
    omega
  have h0 : ¬ (n = 0 ∨ d = 0) := by omega
  simp only [roundFrac]
  rw [if_neg h0]
  by_cases hov : 1023 < ratExp n d + e
  · rw [if_pos hov]
    exact Or.inl rfl
  · rw [if_neg hov]
    have hk1074 : (-1074 : ℤ) ≤ max (ratExp n d + e - 52) (-1074) := le_max_right _ _
    have hkev : ratExp n d + e ≤ max (ratExp n d + e - 52) (-1074) + 52 := by
      have := le_max_left (ratExp n d + e - 52) (-1074 : ℤ)
      omega
    have hDpos : 0 < d * pow2 (-(e - max (ratExp n d + e - 52) (-1074))).toNat :=
      Nat.mul_pos hd (pow2_pos _)
    have hkey : 1 ≤ roundSig
        (n * pow2 (e - max (ratExp n d + e - 52) (-1074)).toNat)
        (d * pow2 (-(e - max (ratExp n d + e - 52) (-1074))).toNat) ∧
        (2 : ℚ) ^ c ≤
          (roundSig (n * pow2 (e - max (ratExp n d + e - 52) (-1074)).toNat)
            (d * pow2 (-(e - max (ratExp n d + e - 52) (-1074))).toNat) : ℚ) *
            2 ^ max (ratExp n d + e - 52) (-1074) := by
    -- case split on the position of c relative to the rounding scale
      rcases le_or_lt (max (ratExp n d + e - 52) (-1074)) c with hkc | hck
      · have ht := le_roundSig_of_le _ _ (2 ^ ((c - max (ratExp n d + e - 52) (-1074)).toNat))
          hDpos (roundFrac_caseA n d e c _ h hkc)
        refine ⟨le_trans (Nat.one_le_two_pow) ht, ?_⟩
        have htQ : ((2 ^ ((c - max (ratExp n d + e - 52) (-1074)).toNat) : ℕ) : ℚ) ≤
            (roundSig (n * pow2 (e - max (ratExp n d + e - 52) (-1074)).toNat)
              (d * pow2 (-(e - max (ratExp n d + e - 52) (-1074))).toNat) : ℚ) :=
          Nat.cast_le.mpr ht
        rw [natpow_castQ] at htQ
        have e1 : (((c - max (ratExp n d + e - 52) (-1074)).toNat : ℕ) : ℤ) =
            c - max (ratExp n d + e - 52) (-1074) := by omega
        rw [e1] at htQ
        calc (2 : ℚ) ^ c
            = 2 ^ (c - max (ratExp n d + e - 52) (-1074)) *
              2 ^ max (ratExp n d + e - 52) (-1074) := by
              rw [two_zpow_mul, show c - max (ratExp n d + e - 52) (-1074) +
                max (ratExp n d + e - 52) (-1074) = c from by ring]
          _ ≤ (roundSig (n * pow2 (e - max (ratExp n d + e - 52) (-1074)).toNat)
                (d * pow2 (-(e - max (ratExp n d + e - 52) (-1074))).toNat) : ℚ) *
              2 ^ max (ratExp n d + e - 52) (-1074) :=
              mul_le_mul_of_nonneg_right htQ (le_of_lt (two_zpow_pos _))
      · have hKeq : max (ratExp n d + e - 52) (-1074) = ratExp n d + e - 52 := by
          rcases max_choice (ratExp n d + e - 52) (-1074 : ℤ) with hmc | hmc
          · exact hmc
          · omega
        have ht := le_roundSig_of_le _ _ (2 ^ 52) hDpos
          (roundFrac_caseB n d e (ratExp n d) _ hP.1 (by omega))
        refine ⟨le_trans (Nat.one_le_two_pow) ht, ?_⟩
        have htQ : ((2 ^ 52 : ℕ) : ℚ) ≤
            (roundSig (n * pow2 (e - max (ratExp n d + e - 52) (-1074)).toNat)
              (d * pow2 (-(e - max (ratExp n d + e - 52) (-1074))).toNat) : ℚ) :=
          Nat.cast_le.mpr ht
        rw [natpow_castQ] at htQ
        calc (2 : ℚ) ^ c
            ≤ 2 ^ (((52 : ℕ) : ℤ)) * 2 ^ max (ratExp n d + e - 52) (-1074) := by
              rw [two_zpow_mul]
              apply two_zpow_mono
              omega
          _ ≤ (roundSig (n * pow2 (e - max (ratExp n d + e - 52) (-1074)).toNat)
                (d * pow2 (-(e - max (ratExp n d + e - 52) (-1074))).toNat) : ℚ) *
              2 ^ max (ratExp n d + e - 52) (-1074) :=
              mul_le_mul_of_nonneg_right htQ (le_of_lt (two_zpow_pos _))
    by_cases hbump : pow2 53 ≤ roundSig
        (n * pow2 (e - max (ratExp n d + e - 52) (-1074)).toNat)
        (d * pow2 (-(e - max (ratExp n d + e - 52) (-1074))).toNat)
    · rw [if_pos hbump]
      by_cases hinf : 971 < max (ratExp n d + e - 52) (-1074) + 1
      · rw [if_pos hinf]
        exact Or.inl rfl
      · rw [if_neg hinf]
        right
        refine ⟨pow2 52, max (ratExp n d + e - 52) (-1074) + 1, rfl, pow2_pos 52, ?_⟩
        rw [pow2_castQ]
        calc (2 : ℚ) ^ c
            ≤ 2 ^ (((52 : ℕ) : ℤ)) * 2 ^ (max (ratExp n d + e - 52) (-1074) + 1) := by
              rw [two_zpow_mul]
              apply two_zpow_mono
              omega
          _ = 2 ^ (((52 : ℕ) : ℤ)) * 2 ^ (max (ratExp n d + e - 52) (-1074) + 1) := rfl
    · rw [if_neg hbump]
      have hz : ¬ (roundSig
          (n * pow2 (e - max (ratExp n d + e - 52) (-1074)).toNat)
          (d * pow2 (-(e - max (ratExp n d + e - 52) (-1074))).toNat) = 0) := by
        have := hkey.1
        omega
      rw [if_neg hz]
      right
      exact ⟨_, _, rfl, by omega, hkey.2⟩

/-! ### The Newton step preserves strict positivity -/

theorem natAbs_castQ (z : ℤ) (hz : 0 ≤ z) : ((z.natAbs : ℕ) : ℚ) = (z : ℚ) := by
  push_cast [Int.cast_natAbs]
  exact abs_of_nonneg (by exact_mod_cast hz)

theorem toRat_fin (m : ℕ) (e : ℤ) : toRat (.fin false m e) = (m : ℚ) * 2 ^ e := by
  simp [toRat]

theorem toRat_fin_pos (m : ℕ) (e : ℤ) (hm : 0 < m) : 0 < toRat (.fin false m e) := by
  rw [toRat_fin]
  have := two_zpow_pos e
  positivity

theorem toRat_fin_nonneg (m : ℕ) (e : ℤ) : 0 ≤ toRat (.fin false m e) := by
  rw [toRat_fin]
  have := two_zpow_pos e
  positivity

theorem fmul_half_inf : fmul litHalf (.inf false) = .inf false := by
  have h : pow2 52 ≠ 0 := Nat.pos_iff_ne_zero.mp (pow2_pos 52)
  simp [fmul, litHalf, h]

theorem fmul_half_fin (ms : ℕ) (ks : ℤ) :
    fmul litHalf (.fin false ms ks) = roundFrac false (pow2 52 * ms) 1 (-53 + ks) := by
  simp [fmul, litHalf]

theorem fadd_fin_inf (s : Bool) (m : ℕ) (e : ℤ) :
    fadd (.fin s m e) (.inf false) = .inf false := rfl

theorem pow2_53_lt_4096 : pow2 53 < 2 ^ 4096 := by
  rw [pow2_eq]
  exact Nat.pow_lt_pow_right (by norm_num) (by norm_num)

/-- Common tail of the step invariant: if `x` is a bounded positive finite
float and `d` a bounded nonnegative finite float with `x + d ≥ 2^cL` exactly,
then `0.5 * (x + d)` rounds to a strictly positive value. -/
theorem half_add_posW (mx : ℕ) (ex : ℤ) (md : ℕ) (kd : ℤ) (cL : ℤ)
    (hmx : 0 < mx) (hmx53 : mx < pow2 53) (hex1 : -1074 ≤ ex) (hex2 : ex ≤ 971)
    (hmd53 : md < pow2 53) (hkd1 : -1074 ≤ kd) (hkd2 : kd ≤ 971)
    (hcL : -1073 ≤ cL)
    (hq : (2 : ℚ) ^ cL ≤ toRat (.fin false mx ex) + toRat (.fin false md kd)) :
    posW (fmul litHalf (fadd (.fin false mx ex) (.fin false md kd))) = true := by
  -- the exact sum is strictly positive
  have hl1 : min ex kd ≤ ex := min_le_left _ _
  have hl2 : min ex kd ≤ kd := min_le_right _ _
  have hz1 : (0 : ℤ) < Float64.scaled false mx ex (min ex kd) := by
    simp only [Float64.scaled, cond]
    have h1 : (0 : ℤ) < (mx : ℤ) := by exact_mod_cast hmx
    have h2 : (0 : ℤ) < (pow2 (ex - min ex kd).toNat : ℕ) := by exact_mod_cast pow2_pos _
    positivity
  have hz2 : (0 : ℤ) ≤ Float64.scaled false md kd (min ex kd) := by
    simp only [Float64.scaled, cond]
    positivity
  have hzpos : (0 : ℤ) <
      Float64.scaled false mx ex (min ex kd) + Float64.scaled false md kd (min ex kd) := by
    omega
  have hzne : ¬ (Float64.scaled false mx ex (min ex kd) +
      Float64.scaled false md kd (min ex kd) = 0) := by omega
  have hzneg : ¬ (Float64.scaled false mx ex (min ex kd) +
      Float64.scaled false md kd (min ex kd) < 0) := by omega
  have hadd : fadd (.fin false mx ex) (.fin false md kd) =
      roundFrac false
        (Float64.scaled false mx ex (min ex kd) +
          Float64.scaled false md kd (min ex kd)).natAbs 1 (min ex kd) := by
    simp only [fadd]
    rw [if_neg hzne]
    simp [hzneg]
  -- cast value of the exact sum
  have hcast : (((Float64.scaled false mx ex (min ex kd) +
      Float64.scaled false md kd (min ex kd)).natAbs : ℕ) : ℚ) * 2 ^ (min ex kd) =
      toRat (.fin false mx ex) + toRat (.fin false md kd) := by
    rw [natAbs_castQ _ (le_of_lt hzpos)]
    push_cast
    rw [add_mul]
    rw [show ((Float64.scaled false mx ex (min ex kd) : ℤ) : ℚ) * 2 ^ (min ex kd) =
        toRat (.fin false mx ex) from scaled_castQ false mx ex (min ex kd) hl1]
    rw [show ((Float64.scaled false md kd (min ex kd) : ℤ) : ℚ) * 2 ^ (min ex kd) =
        toRat (.fin false md kd) from scaled_castQ false md kd (min ex kd) hl2]
  -- bound on the integer sum
  have habs : (Float64.scaled false mx ex (min ex kd) +
      Float64.scaled false md kd (min ex kd)).natAbs < 2 ^ 4096 := by
    have b1 : Float64.scaled false mx ex (min ex kd) ≤ (pow2 53 : ℕ) * (pow2 2045 : ℕ) := by
      simp only [Float64.scaled, cond]
      have e1 : (ex - min ex kd).toNat ≤ 2045 := by omega
      have p1 : (pow2 (ex - min ex kd).toNat : ℕ) ≤ (pow2 2045 : ℕ) := by
        rw [pow2_eq, pow2_eq]
        exact Nat.pow_le_pow_right (by norm_num) e1
      have : (mx : ℤ) * (pow2 (ex - min ex kd).toNat : ℕ) ≤ (pow2 53 : ℕ) * (pow2 2045 : ℕ) := by
        have ha : (mx : ℤ) ≤ (pow2 53 : ℕ) := by exact_mod_cast le_of_lt hmx53
        have hb : ((pow2 (ex - min ex kd).toNat : ℕ) : ℤ) ≤ ((pow2 2045 : ℕ) : ℤ) := by
          exact_mod_cast p1
        have hc : (0 : ℤ) ≤ (mx : ℤ) := by positivity
        have hd0 : (0 : ℤ) ≤ ((pow2 (ex - min ex kd).toNat : ℕ) : ℤ) := by positivity
        calc (mx : ℤ) * ((pow2 (ex - min ex kd).toNat : ℕ) : ℤ)
            ≤ ((pow2 53 : ℕ) : ℤ) * ((pow2 (ex - min ex kd).toNat : ℕ) : ℤ) :=
              mul_le_mul_of_nonneg_right ha hd0
          _ ≤ ((pow2 53 : ℕ) : ℤ) * ((pow2 2045 : ℕ) : ℤ) :=
              mul_le_mul_of_nonneg_left hb (by positivity)
          _ = (((pow2 53 : ℕ) * (pow2 2045 : ℕ) : ℕ) : ℤ) := by push_cast; ring
      exact_mod_cast this
    have b2 : Float64.scaled false md kd (min ex kd) ≤ (pow2 53 : ℕ) * (pow2 2045 : ℕ) := by
      simp only [Float64.scaled, cond]
      have e1 : (kd - min ex kd).toNat ≤ 2045 := by omega
      have p1 : (pow2 (kd - min ex kd).toNat : ℕ) ≤ (pow2 2045 : ℕ) := by
        rw [pow2_eq, pow2_eq]
        exact Nat.pow_le_pow_right (by norm_num) e1
      have hb : ((pow2 (kd - min ex kd).toNat : ℕ) : ℤ) ≤ ((pow2 2045 : ℕ) : ℤ) := by
        exact_mod_cast p1
      have ha : (md : ℤ) ≤ (pow2 53 : ℕ) := by exact_mod_cast le_of_lt hmd53
      calc (md : ℤ) * ((pow2 (kd - min ex kd).toNat : ℕ) : ℤ)
          ≤ ((pow2 53 : ℕ) : ℤ) * ((pow2 (kd - min ex kd).toNat : ℕ) : ℤ) :=
            mul_le_mul_of_nonneg_right ha (by positivity)
        _ ≤ ((pow2 53 : ℕ) : ℤ) * ((pow2 2045 : ℕ) : ℤ) :=
            mul_le_mul_of_nonneg_left hb (by positivity)
        _ = (((pow2 53 : ℕ) * (pow2 2045 : ℕ) : ℕ) : ℤ) := by push_cast; ring
    have hsum : (Float64.scaled false mx ex (min ex kd) +
        Float64.scaled false md kd (min ex kd)) ≤
        2 * ((pow2 53 : ℕ) * (pow2 2045 : ℕ)) := by omega
    have hpow : 2 * ((pow2 53 : ℕ) * (pow2 2045 : ℕ)) < (2 ^ 4096 : ℕ) := by
      rw [pow2_eq, pow2_eq]
      have e1 : 2 * ((2 : ℕ) ^ 53 * 2 ^ 2045) = 2 ^ 2099 := by ring
      rw [e1]
      exact Nat.pow_lt_pow_right (by norm_num) (by norm_num)
    have : ((Float64.scaled false mx ex (min ex kd) +
        Float64.scaled false md kd (min ex kd)).natAbs : ℤ) < ((2 ^ 4096 : ℕ) : ℤ) := by
      rw [Int.natAbs_of_nonneg (le_of_lt hzpos)]
      calc (Float64.scaled false mx ex (min ex kd) +
            Float64.scaled false md kd (min ex kd))
          ≤ 2 * ((pow2 53 : ℕ) * (pow2 2045 : ℕ)) := hsum
        _ < ((2 ^ 4096 : ℕ) : ℤ) := by exact_mod_cast hpow
    exact_mod_cast this
  rw [hadd]
  -- the sum rounds to ∞ or to a positive finite float of value ≥ 2^cL
  have hlb := roundFrac_lb
    ((Float64.scaled false mx ex (min ex kd) + Float64.scaled false md kd (min ex kd)).natAbs)
    1 (min ex kd) cL (by omega) (by norm_num) habs (by norm_num) (by omega)
    (by
      rw [Nat.cast_one, mul_one, hcast]
      exact hq)
  have hsh := roundFrac_shape false
    ((Float64.scaled false mx ex (min ex kd) + Float64.scaled false md kd (min ex kd)).natAbs)
    1 (min ex kd)
  rcases hlb with hsinf | ⟨ms, ks, hseq, hms, hsval⟩
  · rw [hsinf, fmul_half_inf]
    rfl
  · rcases hsh with hsinf2 | ⟨ms2, ks2, hseq2, hms53, hks1, hks2⟩
    · rw [hseq] at hsinf2
      simp at hsinf2
    · rw [hseq] at hseq2
      injection hseq2 with hs1 hs2 hs3
      subst hs2
      subst hs3
      rw [hseq, fmul_half_fin]
      -- round 0.5 * value, with value ≥ 2^cL
      have hms4096 : pow2 52 * ms < 2 ^ 4096 := by
        have hlt : pow2 52 * ms < pow2 53 * pow2 53 :=
          Nat.mul_lt_mul_of_lt_of_lt pow2_52_lt_53 hms53
        calc pow2 52 * ms < pow2 53 * pow2 53 := hlt
          _ < 2 ^ 4096 := by
              rw [pow2_eq]
              have e1 : (2 : ℕ) ^ 53 * 2 ^ 53 = 2 ^ 106 := by ring
              rw [e1]
              exact Nat.pow_lt_pow_right (by norm_num) (by norm_num)
      have hq2 : (2:ℚ) ^ (cL - 1) * ((1:ℕ) : ℚ) ≤
          ((pow2 52 * ms : ℕ) : ℚ) * 2 ^ (-53 + ks) := by
        rw [Nat.cast_one, mul_one]
        push_cast [pow2_castQ]
        have e1 : (2:ℚ) ^ (52:ℤ) * (ms : ℚ) * 2 ^ (-53 + ks) =
            (ms : ℚ) * 2 ^ ks * 2 ^ (-1 : ℤ) := by
          rw [mul_comm ((2:ℚ) ^ (52:ℤ)) (ms : ℚ), mul_assoc, two_zpow_mul,
            show (52:ℤ) + (-53 + ks) = ks + -1 from by omega,
            ← two_zpow_mul, ← mul_assoc]
        rw [e1, show (cL - 1 : ℤ) = cL + -1 from by ring, ← two_zpow_mul]
        exact mul_le_mul_of_nonneg_right hsval (le_of_lt (two_zpow_pos _))
      have hlb2 := roundFrac_lb (pow2 52 * ms) 1 (-53 + ks) (cL - 1)
        (Nat.mul_pos (pow2_pos 52) (by omega)) (by norm_num) hms4096 (by norm_num)
        (by omega) hq2
      have hsh2 := roundFrac_shape false (pow2 52 * ms) 1 (-53 + ks)
      rcases hlb2 with hfinf | ⟨mf, kf, hfeq, hmf, hfval⟩
      · rw [hfinf]
        rfl
      · rcases hsh2 with hfinf2 | ⟨mf2, kf2, hfeq2, hmf53, hkf1, hkf2⟩
        · rw [hfeq] at hfinf2
          simp at hfinf2
        · rw [hfeq] at hfeq2
          injection hfeq2 with hf1 hf2 hf3
          subst hf2
          subst hf3
          rw [hfeq]
          simp only [posW, Bool.not_false, Bool.true_and, Bool.and_eq_true,
            decide_eq_true_eq]
          omega

theorem pow2_53_lt_4096' : pow2 53 < 2 ^ 4096 := pow2_53_lt_4096

/-- One Newton step `0.5 * (x + a/x)` of the kernel maps a strictly positive
bounded estimate to a strictly positive bounded estimate, for any well-formed
strictly positive finite `a`.  In particular the step never produces a zero,
so the next division `a / x` always has a nonzero divisor. -/
theorem stepF_posW (a x : Float64) (ha : wfF a = true) (hpa : isPosFin a = true)
    (hx : posW x = true) : posW (stepF a x) = true := by
  cases a with
  | nan => simp [isPosFin] at hpa
  | inf s => simp [isPosFin] at hpa
  | fin sa ma ea =>
    simp only [isPosFin, Bool.and_eq_true, Bool.not_eq_true', decide_eq_true_eq] at hpa
    obtain ⟨hsa, hma⟩ := hpa
    subst hsa
    simp only [wfF, Bool.and_eq_true, Bool.or_eq_true, decide_eq_true_eq] at ha
    obtain ⟨⟨⟨hma53, hea1⟩, hea2⟩, _⟩ := ha
    have hma4096 : ma < 2 ^ 4096 := lt_trans (by rwa [pow2_eq] at hma53 ⊢) pow2_53_lt_4096
    cases x with
    | nan => simp [posW] at hx
    | inf sx =>
      simp only [posW, Bool.not_eq_true'] at hx
      subst hx
      rw [show stepF (.fin false ma ea) (.inf false) = .inf false from by
        simp only [stepF, fdiv, fadd]
        exact fmul_half_inf]
      rfl
    | fin sx mx ex =>
      simp only [posW, Bool.and_eq_true, Bool.not_eq_true', decide_eq_true_eq] at hx
      obtain ⟨⟨⟨⟨hsx, hmx⟩, hmx53⟩, hex1⟩, hex2⟩ := hx
      subst hsx
      have hmx4096 : mx < 2 ^ 4096 := lt_trans (by rwa [pow2_eq] at hmx53 ⊢) pow2_53_lt_4096
      have hdiv : fdiv (.fin false ma ea) (.fin false mx ex) =
          roundFrac false ma mx (ea - ex) := by
        simp only [fdiv, if_neg (show ¬ mx = 0 from by omega)]
        rfl
      have hstep : stepF (.fin false ma ea) (.fin false mx ex) =
          fmul litHalf (fadd (.fin false mx ex) (roundFrac false ma mx (ea - ex))) := by
        rw [stepF, hdiv]
      rcases roundFrac_shape false ma mx (ea - ex) with hdinf | ⟨md, kd, hdeq, hmd53, hkd1, hkd2⟩
      · rw [hstep, hdinf, fadd_fin_inf, fmul_half_inf]
        rfl
      · rcases le_or_lt ((2:ℚ) ^ (-600 : ℤ)) (toRat (.fin false mx ex)) with hbig | hsmall
        · rw [hstep, hdeq]
          exact half_add_posW mx ex md kd (-600) hmx hmx53 hex1 hex2 hmd53 hkd1 hkd2
            (by norm_num)
            (le_trans hbig (le_add_of_nonneg_right (toRat_fin_nonneg md kd)))
        · -- x is tiny, so a/x is large: value of the quotient is at least 2^(-474)
          have hqa : (2:ℚ) ^ (-1074 : ℤ) ≤ (ma : ℚ) * 2 ^ ea := by
            have h1 : (1 : ℚ) ≤ (ma : ℚ) := by exact_mod_cast Nat.one_le_iff_ne_zero.mpr hma
            calc (2:ℚ) ^ (-1074 : ℤ) ≤ 2 ^ ea := two_zpow_mono hea1
              _ = 1 * 2 ^ ea := (one_mul _).symm
              _ ≤ (ma : ℚ) * 2 ^ ea :=
                  mul_le_mul_of_nonneg_right h1 (le_of_lt (two_zpow_pos ea))
          have hlbq : (2:ℚ) ^ (-474 : ℤ) * mx ≤ (ma : ℚ) * 2 ^ (ea - ex) := by
            rw [toRat_fin] at hsmall
            have hc1 : (2:ℚ) ^ (-474 : ℤ) * ((mx : ℚ) * 2 ^ ex) <
                2 ^ (-474 : ℤ) * 2 ^ (-600 : ℤ) :=
              mul_lt_mul_of_pos_left hsmall (two_zpow_pos _)
            rw [two_zpow_mul, show (-474 : ℤ) + -600 = -1074 from by norm_num] at hc1
            have hc2 : (2:ℚ) ^ (-474 : ℤ) * ((mx : ℚ) * 2 ^ ex) <
                ((ma : ℚ) * 2 ^ (ea - ex)) * 2 ^ ex := by
              calc (2:ℚ) ^ (-474 : ℤ) * ((mx : ℚ) * 2 ^ ex) < 2 ^ (-1074 : ℤ) := hc1
                _ ≤ (ma : ℚ) * 2 ^ ea := hqa
                _ = ((ma : ℚ) * 2 ^ (ea - ex)) * 2 ^ ex := by
                    rw [mul_assoc, two_zpow_mul,
                      show (ea - ex) + ex = ea from by ring]
            have hc3 : ((2:ℚ) ^ (-474 : ℤ) * mx) * 2 ^ ex <
                ((ma : ℚ) * 2 ^ (ea - ex)) * 2 ^ ex := by
              calc ((2:ℚ) ^ (-474 : ℤ) * mx) * 2 ^ ex
                  = (2:ℚ) ^ (-474 : ℤ) * ((mx : ℚ) * 2 ^ ex) := by ring
                _ < ((ma : ℚ) * 2 ^ (ea - ex)) * 2 ^ ex := hc2
            exact le_of_lt (lt_of_mul_lt_mul_right hc3 (le_of_lt (two_zpow_pos ex)))
          rcases roundFrac_lb ma mx (ea - ex) (-474) (by omega) (by omega) hma4096 hmx4096
              (by norm_num) hlbq with hdinf2 | ⟨md2, kd2, hdeq2, hmd2, hdval⟩
          · rw [hdeq] at hdinf2
            simp at hdinf2
          · rw [hdeq] at hdeq2
            injection hdeq2 with hd1 hd2 hd3
            subst hd2
            subst hd3
            rw [hstep, hdeq]
            exact half_add_posW mx ex md kd (-474) hmx hmx53 hex1 hex2 hmd53 hkd1 hkd2
              (by norm_num)
              (by
                rw [toRat_fin md kd]
                exact le_trans hdval
                  (le_add_of_nonneg_left (toRat_fin_nonneg mx ex)))

theorem posW_of_wf_posFin (a : Float64) (ha : wfF a = true) (hpa : isPosFin a = true) :
    posW a = true := by
  cases a with
  | nan => simp [isPosFin] at hpa
  | inf s => simp [isPosFin] at hpa
  | fin s m e =>
    simp only [isPosFin, Bool.and_eq_true, Bool.not_eq_true', decide_eq_true_eq] at hpa
    simp only [wfF, Bool.and_eq_true, Bool.or_eq_true, decide_eq_true_eq] at ha
    simp only [posW, Bool.and_eq_true, Bool.not_eq_true', decide_eq_true_eq]
    obtain ⟨hs, hm⟩ := hpa
    exact ⟨⟨⟨⟨hs, by omega⟩, ha.1.1.1⟩, ha.1.1.2⟩, ha.1.2⟩

theorem posW_lit1 : posW lit1 = true := by decide

theorem initGuess_posW (a : Float64) (ha : wfF a = true) (hpa : isPosFin a = true) :
    posW (initGuess a) = true := by
  unfold initGuess
  split
  · exact posW_of_wf_posFin a ha hpa
  · exact posW_lit1

theorem nthIter_posW (a : Float64) (ha : wfF a = true) (hpa : isPosFin a = true) :
    ∀ k, posW (nthIter a (initGuess a) k) = true
  | 0 => initGuess_posW a ha hpa
  | k + 1 => stepF_posW a _ ha hpa (nthIter_posW a ha hpa k)

theorem newtonLoop_posW (a eps : Float64) (ha : wfF a = true) (hpa : isPosFin a = true) :
    ∀ (n : ℕ) (x : Float64), posW x = true → posW (newtonLoop a eps n x) = true
  | 0, x, hx => hx
  | n + 1, x, hx => by
    by_cases hs : stopTest a eps x = true
    · rw [newtonLoop_stop a eps x n hs]
      exact stepF_posW a x ha hpa hx
    · rw [Bool.not_eq_true] at hs
      rw [newtonLoop_go a eps x n hs]
      exact newtonLoop_posW a eps ha hpa n (stepF a x) (stepF_posW a x ha hpa hx)

theorem posW_isPos (x : Float64) (h : posW x = true) : isPos x = true := by
  cases x with
  | nan => simp [posW] at h
  | inf s => simpa [posW, isPos] using h
  | fin s m e =>
    simp only [posW, Bool.and_eq_true, Bool.not_eq_true', decide_eq_true_eq] at h
    simp only [isPos, Bool.and_eq_true, Bool.not_eq_true', decide_eq_true_eq]
    exact ⟨h.1.1.1.1, by omega⟩

theorem scaled_false_pos (m : ℕ) (e l : ℤ) (hm : 0 < m) :
    0 < Float64.scaled false m e l := by
  simp only [Float64.scaled, cond]
  have h1 : (0 : ℤ) < (m : ℤ) := by exact_mod_cast hm
  have h2 : (0 : ℤ) < ((pow2 (e - l).toNat : ℕ) : ℤ) := by exact_mod_cast pow2_pos _
  positivity

theorem scaled_zero (e l : ℤ) (s : Bool) : Float64.scaled s 0 e l = 0 := by
  cases s <;> simp [Float64.scaled]

/-- A strictly positive value compares unequal to `+0.0`, so dividing by it is
never a division by zero. -/
theorem isPos_feq_pzero (x : Float64) (h : isPos x = true) : feq x pzero = false := by
  cases x with
  | nan => rfl
  | inf s => rfl
  | fin s m e =>
    simp only [isPos, Bool.and_eq_true, Bool.not_eq_true', decide_eq_true_eq] at h
    obtain ⟨hs, hm⟩ := h
    subst hs
    show feq (.fin false m e) (.fin false 0 (-1074)) = false
    simp only [feq, decide_eq_false_iff_not]
    rw [scaled_zero]
    exact ne_of_gt (scaled_false_pos m e _ (by omega))

/-- A strictly positive value is at least `+0.0` in the IEEE order. -/
theorem isPos_fle_pzero (x : Float64) (h : isPos x = true) : fle pzero x = true := by
  cases x with
  | nan => simp [isPos] at h
  | inf s =>
    simp only [isPos, Bool.not_eq_true'] at h
    subst h
    rfl
  | fin s m e =>
    simp only [isPos, Bool.and_eq_true, Bool.not_eq_true', decide_eq_true_eq] at h
    obtain ⟨hs, hm⟩ := h
    subst hs
    show fle (.fin false 0 (-1074)) (.fin false m e) = true
    simp only [fle, flt, Bool.or_eq_true, decide_eq_true_eq]
    right
    rw [scaled_zero]
    exact scaled_false_pos m e _ (by omega)

theorem isPosFin_isPos (x : Float64) (h : isPosFin x = true) : isPos x = true := by
  cases x with
  | nan => simp [isPosFin] at h
  | inf s => simp [isPosFin] at h
  | fin s m e => simpa [isPosFin, isPos] using h

theorem isPosFin_flt_pzero (a : Float64) (h : isPosFin a = true) : flt a pzero = false := by
  cases a with
  | nan => simp [isPosFin] at h
  | inf s => simp [isPosFin] at h
  | fin s m e =>
    simp only [isPosFin, Bool.and_eq_true, Bool.not_eq_true', decide_eq_true_eq] at h
    obtain ⟨hs, hm⟩ := h
    subst hs
    show flt (.fin false m e) (.fin false 0 (-1074)) = false
    simp only [flt, decide_eq_false_iff_not]
    rw [scaled_zero]
    have := scaled_false_pos m e (min e (-1074)) (by omega)
    omega

/-- On a well-formed positive finite input, `sqrt_newton` enters the Newton
loop and its result is a strictly positive bounded value (never NaN, zero, or
a negative). -/
theorem sqrt_newton_posW (a eps : Float64) (m : ℕ)
    (ha : wfF a = true) (hpa : isPosFin a = true) :
    posW (sqrt_newton a eps m) = true := by
  rw [sqrt_newton, if_neg (by rw [isPosFin_flt_pzero a hpa]; exact Bool.false_ne_true),
    if_neg (by rw [isPos_feq_pzero a (isPosFin_isPos a hpa)]; exact Bool.false_ne_true)]
  exact newtonLoop_posW a eps ha hpa m (initGuess a) (initGuess_posW a ha hpa)

/-! ### Concrete kernel runs (evaluated in the Lean kernel) -/

theorem run_sqrt2 : sqrt_newton lit2 litEps 100 = sqrt2dn := by decide

theorem run_sqrt9 : sqrt_newton lit9 litEps 100 = lit3 := by decide

theorem run_sqrtQuarter : sqrt_newton litQuarter litEps 100 = litHalf := by decide

theorem run_sqrt1em12 :
    sqrt_newton lit1em12 litEps 100 = .fin false 4722366482869670 (-72) := by decide

theorem run_sqrt1e12 : sqrt_newton lit1e12 litEps 100 = lit1e6 := by decide

theorem hit_2 : firstHit lit2 litEps 60 (initGuess lit2) = some 4 := by decide

theorem hit_9 : firstHit lit9 litEps 60 (initGuess lit9) = some 6 := by decide

theorem hit_quarter : firstHit litQuarter litEps 60 (initGuess litQuarter) = some 5 := by
  decide

theorem hit_1em12 : firstHit lit1em12 litEps 60 (initGuess lit1em12) = some 23 := by decide

theorem hit_1e12 : firstHit lit1e12 litEps 60 (initGuess lit1e12) = some 24 := by decide

theorem hit_big_none : firstHit aBig litEps 60 (initGuess aBig) = none := by decide

theorem hit_star_none : firstHit aStar litEps 5 (initGuess aStar) = none := by decide

theorem iter_star_5 :
    nthIter aStar (initGuess aStar) 5 = .fin false 6443256719817588 (-52) := by decide

/-! ### Claims -/

/-- C3: for every negative input `a` (`a < 0.0` in IEEE order), with any
`eps` and any iteration cap, `sqrt_newton` returns the NaN produced in-band by
evaluating the indeterminate form `0.0 / 0.0` on local zeros: the result is
exactly the value of `fdiv pzero pzero`, which is NaN, i.e. it fails the
self-equality test `x == x` — no library call and no out-of-band error is
involved. -/
theorem C3_negative_yields_nan (a eps : Float64) (m : ℕ)
    (h : flt a pzero = true) :
    sqrt_newton a eps m = fdiv pzero pzero ∧ fdiv pzero pzero = Float64.nan ∧
      is_nan (sqrt_newton a eps m) = true := by
  have h1 : sqrt_newton a eps m = fdiv pzero pzero := by
    rw [sqrt_newton, if_pos h]
  refine ⟨h1, by decide, ?_⟩
  rw [h1]
  decide

theorem C3_negative_yields_nan_witness :
    flt litm4 pzero = true ∧
      (sqrt_newton litm4 litEps 100 = fdiv pzero pzero ∧
        fdiv pzero pzero = Float64.nan ∧
        is_nan (sqrt_newton litm4 litEps 100) = true) :=
  ⟨by decide, C3_negative_yields_nan litm4 litEps 100 (by decide)⟩

/-- C5: for inputs that reach the loop (not negative, not zero),
`sqrt_newton` returns the first iterate `x_{k+1}` whose step passes the
stopping test `diff <= tol` (`firstHit` finds the least such `k`, as the
second and third conjuncts state), and returns the last computed estimate when
no stop occurs within `max_iters`; the test is the non-strict `fle`, so a
`diff` exactly equal to `tol` stops (last conjunct: `fle` holds on equal
non-NaN arguments). -/
theorem C5_first_hit_returned (a eps : Float64) (n : ℕ)
    (hneg : flt a pzero = false) (hzero : feq a pzero = false) :
    (sqrt_newton a eps n =
      (match firstHit a eps n (initGuess a) with
        | some k => nthIter a (initGuess a) (k + 1)
        | none => nthIter a (initGuess a) n)) ∧
    (∀ k, firstHit a eps n (initGuess a) = some k →
      k < n ∧ stopTest a eps (nthIter a (initGuess a) k) = true ∧
        ∀ j, j < k → stopTest a eps (nthIter a (initGuess a) j) = false) ∧
    (firstHit a eps n (initGuess a) = none →
      ∀ j, j < n → stopTest a eps (nthIter a (initGuess a) j) = false) ∧
    (∀ d, is_nan d = false → fle d d = true) := by
  refine ⟨?_, ?_, ?_, fle_refl_of_not_nan⟩
  · rw [sqrt_newton, if_neg (by simp [hneg]), if_neg (by simp [hzero])]
    exact newtonLoop_eq_firstHit a eps n (initGuess a)
  · intro k hk
    exact firstHit_some_spec a eps n (initGuess a) k hk
  · intro hnone
    exact firstHit_none_spec a eps n (initGuess a) hnone

theorem C5_first_hit_returned_witness :
    flt lit2 pzero = false ∧ feq lit2 pzero = false ∧
      ((sqrt_newton lit2 litEps 100 =
        (match firstHit lit2 litEps 100 (initGuess lit2) with
          | some k => nthIter lit2 (initGuess lit2) (k + 1)
          | none => nthIter lit2 (initGuess lit2) 100)) ∧
      (∀ k, firstHit lit2 litEps 100 (initGuess lit2) = some k →
        k < 100 ∧ stopTest lit2 litEps (nthIter lit2 (initGuess lit2) k) = true ∧
          ∀ j, j < k → stopTest lit2 litEps (nthIter lit2 (initGuess lit2) j) = false) ∧
      (firstHit lit2 litEps 100 (initGuess lit2) = none →
        ∀ j, j < 100 → stopTest lit2 litEps (nthIter lit2 (initGuess lit2) j) = false) ∧
      (∀ d, is_nan d = false → fle d d = true)) :=
  ⟨by decide, by decide, C5_first_hit_returned lit2 litEps 100 (by decide) (by decide)⟩

/-- C6: for the input `+0.0` the kernel returns `+0.0` exactly (bitwise, the
same canonical representation), for every positive `eps` and every iteration
cap `n ≥ 0`: the `a == 0.0` branch returns before the loop. -/
theorem C6_zero_identity (eps : Float64) (n : ℕ) (_heps : flt pzero eps = true) :
    sqrt_newton pzero eps n = pzero := by
  rw [sqrt_newton, if_neg (by decide), if_pos (by decide)]

theorem C6_zero_identity_witness :
    flt pzero litEps = true ∧ sqrt_newton pzero litEps 100 = pzero :=
  ⟨by decide, C6_zero_identity litEps 100 (by decide)⟩

/-- C9: a `+∞` input yields NaN for any `eps` and any cap `m ≥ 1`: the first
step computes `0.5 * (∞ + ∞/∞) = NaN`, the stop test never passes on NaN, and
the NaN estimate is what remains when the cap runs out.  A NaN input likewise
propagates to a NaN result. -/
theorem C9_inf_and_nan_input (eps : Float64) (m : ℕ) (h : 1 ≤ m) :
    is_nan (sqrt_newton (.inf false) eps m) = true ∧
      is_nan (sqrt_newton Float64.nan eps m) = true := by
  obtain ⟨k, rfl⟩ : ∃ k, m = k + 1 := ⟨m - 1, by omega⟩
  constructor
  · rw [sqrt_newton, if_neg (by decide), if_neg (by decide),
      show initGuess (.inf false : Float64) = .inf false from by decide]
    have hstep : stepF (.inf false) (.inf false) = Float64.nan := by decide
    rw [newtonLoop_go _ _ _ _ (stopTest_of_step_nan _ _ _ hstep), hstep, newtonLoop_nan]
    rfl
  · rw [sqrt_newton, if_neg (by decide), if_neg (by decide),
      show initGuess Float64.nan = lit1 from by decide]
    have hstep : stepF Float64.nan lit1 = Float64.nan := by decide
    rw [newtonLoop_go _ _ _ _ (stopTest_of_step_nan _ _ _ hstep), hstep, newtonLoop_nan]
    rfl

theorem C9_inf_and_nan_input_witness :
    1 ≤ 1 ∧ (is_nan (sqrt_newton (.inf false) litEps 1) = true ∧
      is_nan (sqrt_newton Float64.nan litEps 1) = true) :=
  ⟨le_refl 1, C9_inf_and_nan_input litEps 1 (le_refl 1)⟩

/-- C10: the input `-0.0` is classified by the `a < 0.0` test as not negative
(IEEE: `-0 < +0` is false) and by `a == 0.0` as zero, so `sqrt_newton`
returns `+0.0` — not NaN — for every `eps` and every iteration cap. -/
theorem C10_negzero_yields_poszero (eps : Float64) (n : ℕ) :
    sqrt_newton mzero eps n = pzero := by
  rw [sqrt_newton, if_neg (by decide), if_pos (by decide)]

theorem toRat_pow2_fin (t : ℕ) (e : ℤ) :
    toRat (.fin false (pow2 t) e) = (2 : ℚ) ^ ((t : ℤ) + e) := by
  rw [toRat_fin, pow2_castQ, two_zpow_mul]

theorem toRat_mul_pow2_fin (c t : ℕ) (e : ℤ) :
    toRat (.fin false (c * pow2 t) e) = (c : ℚ) * (2 : ℚ) ^ ((t : ℤ) + e) := by
  rw [toRat_fin]
  push_cast [pow2_castQ]
  rw [mul_assoc, two_zpow_mul]

theorem toRat_lit1 : toRat lit1 = 1 := by
  rw [lit1, toRat_pow2_fin]
  norm_num

theorem zpow_sq (e : ℤ) : ((2 : ℚ) ^ e) ^ 2 = 2 ^ (e + e) := by
  rw [pow_two, two_zpow_mul]

/-- C7: the kernel never divides by zero.  For every well-formed strictly
positive finite `a`, every loop-entry estimate (each Newton iterate from the
prescribed initial guess) is strictly positive — and a strictly positive value
compares unequal to `+0.0` (fourth conjunct), so `a / x` never sees a zero
divisor; negative inputs return `0.0/0.0` and zero inputs return `+0.0` from
their branches before any division by an estimate. -/
theorem C7_no_division_by_zero :
    (∀ a k, wfF a = true → isPosFin a = true →
      isPos (nthIter a (initGuess a) k) = true) ∧
    (∀ a eps n, flt a pzero = true → sqrt_newton a eps n = fdiv pzero pzero) ∧
    (∀ a eps n, flt a pzero = false → feq a pzero = true →
      sqrt_newton a eps n = pzero) ∧
    (∀ x, isPos x = true → feq x pzero = false) := by
  refine ⟨?_, ?_, ?_, isPos_feq_pzero⟩
  · intro a k ha hpa
    exact posW_isPos _ (nthIter_posW a ha hpa k)
  · intro a eps n h
    rw [sqrt_newton, if_pos h]
  · intro a eps n h1 h2
    rw [sqrt_newton, if_neg (by simp [h1]), if_pos h2]

theorem C7_no_division_by_zero_witness :
    wfF lit2 = true ∧ isPosFin lit2 = true ∧
      isPos (nthIter lit2 (initGuess lit2) 3) = true ∧
      flt litm4 pzero = true ∧ sqrt_newton litm4 litEps 7 = fdiv pzero pzero ∧
      flt mzero pzero = false ∧ feq mzero pzero = true ∧
      sqrt_newton mzero litEps 7 = pzero ∧
      isPos lit1 = true ∧ feq lit1 pzero = false :=
  ⟨by decide, by decide,
    C7_no_division_by_zero.1 lit2 3 (by decide) (by decide),
    by decide, C7_no_division_by_zero.2.1 litm4 litEps 7 (by decide),
    by decide, by decide,
    C7_no_division_by_zero.2.2.1 mzero litEps 7 (by decide) (by decide),
    by decide, C7_no_division_by_zero.2.2.2 lit1 (by decide)⟩

/-- C2 is refuted by large normal inputs: `aBig = 2^1023` is a well-formed
strictly positive (normal) finite double, yet with `eps = 1e-12` the stopping
test does not fire in the first 60 loop iterations from the prescribed
initial guess (the estimate merely halves each step, needing ≈ 511 iterations
to approach `√a = 2^511.5`), contradicting both "triggers within 60
iterations" and "the cap is never reached on finite normal inputs". -/
theorem C2_counterexample :
    wfF aBig = true ∧ isPosFin aBig = true ∧ stopsWithin aBig litEps 60 = false := by
  refine ⟨by decide, by decide, ?_⟩
  rw [stopsWithin, hit_big_none]
  rfl

/-- C2 amended: with `eps = 1e-12`, the stopping test does trigger within 60
iterations for each positive input of the driver vector (2.0, 9.0, 0.25,
1e-12, 1e12) — but not for every positive binary64 (see the large-input
counterexample). -/
theorem C2_amended_driver_inputs_stop_within_60 :
    stopsWithin lit2 litEps 60 = true ∧ stopsWithin lit9 litEps 60 = true ∧
      stopsWithin litQuarter litEps 60 = true ∧
      stopsWithin lit1em12 litEps 60 = true ∧ stopsWithin lit1e12 litEps 60 = true := by
  refine ⟨?_, ?_, ?_, ?_, ?_⟩
  · rw [stopsWithin, hit_2]; rfl
  · rw [stopsWithin, hit_9]; rfl
  · rw [stopsWithin, hit_quarter]; rfl
  · rw [stopsWithin, hit_1em12]; rfl
  · rw [stopsWithin, hit_1e12]; rfl

/-- C1 is refuted by small positive inputs: for the driver's own small input
`a =` binary64 `1e-12` (with `eps = 1e-12`, cap 100), the kernel returns
`r = 1.0000000000000052e-6`, and `|r*r - a|` exceeds `4 * ulp(a)` by twelve
orders of magnitude: the mixed stopping tolerance `eps * (1 + |x|)` acts as an
absolute floor `≈ 1e-12` that stops the iteration long before `r*r - a` can
shrink to the `ulp(a)` scale (subnormal inputs are even further off). -/
theorem C1_counterexample :
    wfF lit1em12 = true ∧ isPosFin lit1em12 = true ∧
      sqrt_newton lit1em12 litEps 100 = .fin false 4722366482869670 (-72) ∧
      ¬ (|toRat (.fin false 4722366482869670 (-72) : Float64) ^ 2 - toRat lit1em12| ≤
          4 * ulpQ lit1em12) := by
  refine ⟨by decide, by decide, run_sqrt1em12, ?_⟩
  have hlit : lit1em12 = .fin false 4951760157141521 (-92) := by decide
  rw [hlit]
  simp only [ulpQ, toRat_fin]
  push_cast
  have e1 : ((4722366482869670 : ℚ) * 2 ^ (-72 : ℤ)) ^ 2 =
      (4722366482869670 : ℚ) ^ 2 * 2 ^ (-144 : ℤ) := by
    rw [mul_pow, zpow_sq]
    norm_num
  have e2 : (4951760157141521 : ℚ) * 2 ^ (-92 : ℤ) =
      ((4951760157141521 : ℚ) * 2 ^ (52 : ℤ)) * 2 ^ (-144 : ℤ) := by
    rw [mul_assoc, two_zpow_mul]
    norm_num
  have e3 : 4 * (2 : ℚ) ^ (-92 : ℤ) = (4 * (2 : ℚ) ^ (52 : ℤ)) * 2 ^ (-144 : ℤ) := by
    rw [mul_assoc, two_zpow_mul]
    norm_num
  rw [e1, e2, e3, ← sub_mul]
  intro hcon
  have h2 := le_trans (le_abs_self _) hcon
  have h3 := le_of_mul_le_mul_right h2 (two_zpow_pos (-144 : ℤ))
  have hkey : (4 * (2 : ℚ) ^ (52 : ℤ)) <
      (4722366482869670 : ℚ) ^ 2 - (4951760157141521 : ℚ) * 2 ^ (52 : ℤ) := by
    rw [show (52 : ℤ) = ((52 : ℕ) : ℤ) from rfl, zpow_natCast]
    norm_num
  linarith

/-- C1 amended: `r ≥ 0` does hold for every well-formed positive finite
binary64 input, any `eps` and any cap (first conjunct); the error bound
`|r*r - a| ≤ 4 * ulp(a)` holds on the moderate part of the sweep — verified
here for the driver values 2.0, 9.0, 0.25, 1e12 (the last three squaring
exactly) — but not for small or subnormal `a` (see the counterexample). -/
theorem C1_amended_nonneg_and_moderate_sweep :
    (∀ a eps m, wfF a = true → isPosFin a = true →
      fle pzero (sqrt_newton a eps m) = true) ∧
    (sqrt_newton lit2 litEps 100 = sqrt2dn ∧
      |toRat sqrt2dn ^ 2 - toRat lit2| ≤ 4 * ulpQ lit2) ∧
    (sqrt_newton lit9 litEps 100 = lit3 ∧ toRat lit3 ^ 2 = toRat lit9) ∧
    (sqrt_newton litQuarter litEps 100 = litHalf ∧
      toRat litHalf ^ 2 = toRat litQuarter) ∧
    (sqrt_newton lit1e12 litEps 100 = lit1e6 ∧ toRat lit1e6 ^ 2 = toRat lit1e12) := by
  refine ⟨?_, ⟨run_sqrt2, ?_⟩, ⟨run_sqrt9, ?_⟩, ⟨run_sqrtQuarter, ?_⟩,
    ⟨run_sqrt1e12, ?_⟩⟩
  · intro a eps m ha hpa
    exact isPos_fle_pzero _ (posW_isPos _ (sqrt_newton_posW a eps m ha hpa))
  · rw [show sqrt2dn = .fin false 6369051672525772 (-52) from rfl,
      show lit2 = .fin false (pow2 52) (-51) from rfl, toRat_fin, toRat_pow2_fin]
    simp only [ulpQ]
    push_cast
    have e1 : ((6369051672525772 : ℚ) * 2 ^ (-52 : ℤ)) ^ 2 =
        (6369051672525772 : ℚ) ^ 2 * 2 ^ (-104 : ℤ) := by
      rw [mul_pow, zpow_sq]
      norm_num
    have e2 : (2 : ℚ) ^ (1 : ℤ) = (2 : ℚ) ^ (105 : ℤ) * 2 ^ (-104 : ℤ) := by
      rw [two_zpow_mul]
      norm_num
    have e3 : 4 * (2 : ℚ) ^ (-51 : ℤ) = (4 * (2 : ℚ) ^ (53 : ℤ)) * 2 ^ (-104 : ℤ) := by
      rw [mul_assoc, two_zpow_mul]
      norm_num
    rw [e1, e2, e3, ← sub_mul]
    rw [abs_le]
    have hb1 : -(4 * (2 : ℚ) ^ (53 : ℤ)) ≤
        (6369051672525772 : ℚ) ^ 2 - (2 : ℚ) ^ (105 : ℤ) := by
      rw [show (105 : ℤ) = ((105 : ℕ) : ℤ) from rfl,
        show (53 : ℤ) = ((53 : ℕ) : ℤ) from rfl, zpow_natCast, zpow_natCast]
      norm_num
    have hb2 : (6369051672525772 : ℚ) ^ 2 - (2 : ℚ) ^ (105 : ℤ) ≤
        4 * (2 : ℚ) ^ (53 : ℤ) := by
      rw [show (105 : ℤ) = ((105 : ℕ) : ℤ) from rfl,
        show (53 : ℤ) = ((53 : ℕ) : ℤ) from rfl, zpow_natCast, zpow_natCast]
      norm_num
    constructor
    · rw [← neg_mul]
      exact mul_le_mul_of_nonneg_right hb1 (le_of_lt (two_zpow_pos _))
    · exact mul_le_mul_of_nonneg_right hb2 (le_of_lt (two_zpow_pos _))
  · rw [show lit3 = .fin false (3 * pow2 51) (-51) from rfl,
      show lit9 = .fin false (9 * pow2 49) (-49) from rfl,
      toRat_mul_pow2_fin, toRat_mul_pow2_fin]
    norm_num
  · rw [show litHalf = .fin false (pow2 52) (-53) from rfl,
      show litQuarter = .fin false (pow2 52) (-54) from rfl,
      toRat_pow2_fin, toRat_pow2_fin, zpow_sq]
    norm_num
  · rw [show lit1e6 = .fin false (10 ^ 6 * pow2 33) (-33) from rfl,
      show lit1e12 = .fin false (10 ^ 12 * pow2 13) (-13) from rfl,
      toRat_mul_pow2_fin, toRat_mul_pow2_fin]
    norm_num

theorem C1_amended_witness :
    wfF lit2 = true ∧ isPosFin lit2 = true ∧
      fle pzero (sqrt_newton lit2 litEps 100) = true :=
  ⟨by decide, by decide,
    C1_amended_nonneg_and_moderate_sweep.1 lit2 litEps 100 (by decide) (by decide)⟩

/-- C4 is refuted: for the positive normal input `aStar = 2.046875 = 131/64`
(with the conventional `eps = 1e-12`), no stop occurs in the first 5 loop
iterations, so the 5-th iterate `x₅` is the estimate on entry to loop step 5 —
yet `x₅ ≥ 0` with `x₅² < a` exactly, i.e. `x₅ < √a`: rounding pushed the
iterate strictly below the true square root, violating the claimed invariant
`x ≥ √a` on entry to every step (the iterate sequence is therefore not
bounded below by `√a` until the stop test triggers). -/
theorem C4_counterexample :
    wfF aStar = true ∧ isPosFin aStar = true ∧
      stopsWithin aStar litEps 5 = false ∧
      fle pzero (nthIter aStar (initGuess aStar) 5) = true ∧
      toRat (nthIter aStar (initGuess aStar) 5) ^ 2 < toRat aStar := by
  refine ⟨by decide, by decide, ?_, ?_, ?_⟩
  · rw [stopsWithin, hit_star_none]
    rfl
  · rw [iter_star_5]
    decide
  · rw [iter_star_5, show aStar = .fin false 4609152743636992 (-51) from rfl,
      toRat_fin, toRat_fin]
    push_cast
    have e1 : ((6443256719817588 : ℚ) * 2 ^ (-52 : ℤ)) ^ 2 =
        (6443256719817588 : ℚ) ^ 2 * 2 ^ (-104 : ℤ) := by
      rw [mul_pow, zpow_sq]
      norm_num
    have e2 : (4609152743636992 : ℚ) * 2 ^ (-51 : ℤ) =
        ((4609152743636992 : ℚ) * 2 ^ (53 : ℤ)) * 2 ^ (-104 : ℤ) := by
      rw [mul_assoc, two_zpow_mul]
      norm_num
    rw [e1, e2]
    have hkey : (6443256719817588 : ℚ) ^ 2 <
        (4609152743636992 : ℚ) * 2 ^ (53 : ℤ) := by
      rw [show (53 : ℤ) = ((53 : ℕ) : ℤ) from rfl, zpow_natCast]
      norm_num
    exact mul_lt_mul_of_pos_right hkey (two_zpow_pos _)

/-- C4 amended: the initial guess `x₀ = (a ≥ 1 ? a : 1)` does satisfy
`x₀ ≥ √a > 0` (stated squared: `x₀ > 0` and `x₀² ≥ a`) for every well-formed
positive finite `a`; and along the driver inputs 2.0, 9.0 and 0.25 every
estimate that re-enters the loop is at most its predecessor and at least `√a`
(`entriesOk`).  The loop-entry invariant `x ≥ √a` is not valid for every
positive binary64, only the weakened per-input form (see the
counterexample). -/
theorem C4_amended_initial_guess_and_driver_orbits :
    (∀ a, wfF a = true → isPosFin a = true →
      0 < toRat (initGuess a) ∧ toRat a ≤ toRat (initGuess a) ^ 2) ∧
    entriesOk lit2 litEps 100 (initGuess lit2) = true ∧
    entriesOk lit9 litEps 100 (initGuess lit9) = true ∧
    entriesOk litQuarter litEps 100 (initGuess litQuarter) = true := by
  refine ⟨?_, by decide, by decide, by decide⟩
  intro a ha hpa
  cases a with
  | nan => simp [isPosFin] at hpa
  | inf s => simp [isPosFin] at hpa
  | fin s m e =>
    simp only [isPosFin, Bool.and_eq_true, Bool.not_eq_true', decide_eq_true_eq] at hpa
    obtain ⟨hs, hm⟩ := hpa
    subst hs
    have h1eq : toRat (.fin false (pow2 52) (-52)) = 1 := toRat_lit1
    unfold initGuess
    by_cases h : fle lit1 (.fin false m e) = true
    · rw [if_pos h]
      rw [show lit1 = .fin false (pow2 52) (-52) from rfl] at h
      have h1 := (fle_fin_iff false false (pow2 52) m (-52) e).mp h
      rw [h1eq] at h1
      exact ⟨lt_of_lt_of_le one_pos h1, by nlinarith⟩
    · rw [if_neg h]
      rw [Bool.not_eq_true] at h
      rw [show lit1 = .fin false (pow2 52) (-52) from rfl] at h
      have h1 : ¬ (toRat (.fin false (pow2 52) (-52)) ≤ toRat (.fin false m e)) := by
        intro hc
        rw [(fle_fin_iff false false (pow2 52) m (-52) e).mpr hc] at h
        simp at h
      rw [h1eq] at h1
      push_neg at h1
      rw [toRat_lit1]
      exact ⟨one_pos, by nlinarith⟩

theorem C4_amended_witness :
    wfF lit2 = true ∧ isPosFin lit2 = true ∧
      (0 < toRat (initGuess lit2) ∧ toRat lit2 ≤ toRat (initGuess lit2) ^ 2) :=
  ⟨by decide, by decide,
    C4_amended_initial_guess_and_driver_orbits.1 lit2 (by decide) (by decide)⟩

/-- C8 is refuted on the `2.0` row of the table: the kernel returns
`1.4142135623730950` (one ulp below binary64 `√2`), not the claimed
`1.4142135623730951`: the loop stops at the iterate `x₅`, which rounding has
already placed one ulp under `fl(√2)`. -/
theorem C8_counterexample :
    sqrt_newton lit2 litEps 100 = sqrt2dn ∧
      roundFrac false 14142135623730951 (10 ^ 16) 0 = sqrt2up ∧
      sqrt2dn ≠ sqrt2up :=
  ⟨run_sqrt2, by decide, by decide⟩

/-- C8 amended: with `eps = 1e-12` and `max_iters = 100` the driver vector
reproduces, bit for bit: `0.0 → +0.0` exactly; `2.0 → 1.414213562373095`
(one ulp below binary64 `√2`, not `…51`); `9.0 → 3.0` exactly;
`0.25 → 0.5` exactly; `1e-12 → 1.0000000000000052e-6`, which is 25 ulp above
the binary64 nearest `1e-6` (not within 1 ulp); `1e12 → 1000000.0` exactly;
`-4.0 → NaN`. -/
theorem C8_amended_driver_table :
    sqrt_newton pzero litEps 100 = pzero ∧
    (sqrt_newton lit2 litEps 100 = sqrt2dn ∧
      sqrt2dn = roundFrac false 1414213562373095 (10 ^ 15) 0) ∧
    sqrt_newton lit9 litEps 100 = lit3 ∧
    sqrt_newton litQuarter litEps 100 = litHalf ∧
    (sqrt_newton lit1em12 litEps 100 = .fin false 4722366482869670 (-72) ∧
      lit1em6 = roundFrac false 1 (10 ^ 6) 0 ∧
      toRat (.fin false 4722366482869670 (-72) : Float64) - toRat lit1em6 =
        25 * ulpQ lit1em6) ∧
    sqrt_newton lit1e12 litEps 100 = lit1e6 ∧
    is_nan (sqrt_newton litm4 litEps 100) = true := by
  refine ⟨?_, ⟨run_sqrt2, by decide⟩, run_sqrt9, run_sqrtQuarter,
    ⟨run_sqrt1em12, by decide, ?_⟩, run_sqrt1e12, by decide⟩
  · rw [sqrt_newton, if_neg (by decide), if_pos (by decide)]
  · rw [show lit1em6 = .fin false 4722366482869645 (-72) from rfl, toRat_fin, toRat_fin]
    simp only [ulpQ]
    push_cast
    rw [← sub_mul]
    norm_num
